import Mathlib

/-!
# Tick-tack-toe: a shallow embedding of `tick-tack-toe.cpp`

The C++ program keeps a 3×3 grid of `Mass` cells inside a `Board`, decides the
outcome with `Board::calc_result`, lets the human place marks with `Board::put`
and lets one of two computer players (`AI_ordered`, `AI_minimax`) answer.

Stateful member functions are embedded by explicit state passing: a member
function that mutates its object returns the new object next to its C++ return
value.  Loops over `0 .. BOARD_SIZE-1` become traversals of the index list
`idx` (or of `cells`, the row-major list of coordinates, for two nested loops).
-/

namespace TickTackToe

/-! ## Mass -/

/-- The enumeration `Mass::status`. -/
inductive Status where
  | BLANK
  | PLAYER
  | ENEMY
deriving DecidableEq

/-- The class `Mass`: one cell, holding the private field `s_`. -/
structure Mass where
  s_ : Status
deriving DecidableEq

namespace Mass

/-- A default-constructed cell (`status s_ = status::BLANK`). -/
def blank : Mass := ⟨Status.BLANK⟩

/-- The member `void setStatus(status s)`. -/
def setStatus (_m : Mass) (s : Status) : Mass := ⟨s⟩

/-- The member `status getStatus() const`. -/
def getStatus (m : Mass) : Status := m.s_

/-- The member `bool put(status s)`: the returned pair is the C++ return value and
the cell after the call. -/
def put (m : Mass) (s : Status) : Bool × Mass :=
  if m.s_ ≠ Status.BLANK then (false, m)
  else (true, ⟨s⟩)

end Mass

/-! ## Board -/

/-- The enumeration `Board::WINNER`. -/
inductive WINNER where
  | NOT_FINISHED
  | PLAYER
  | ENEMY
  | DRAW
deriving DecidableEq

/-- The constant `Board::BOARD_SIZE`. -/
def BOARD_SIZE : Nat := 3

/-- The conversion `static_cast<WINNER>(winner)` of a `Mass::status`: both
enumerations number `PLAYER` as 1 and `ENEMY` as 2, and 0 is `BLANK` resp.
`NOT_FINISHED`. -/
def Status.toWINNER : Status → WINNER
  | Status.BLANK => WINNER.NOT_FINISHED
  | Status.PLAYER => WINNER.PLAYER
  | Status.ENEMY => WINNER.ENEMY

/-- A C array `T a[3]`: three elements, read and written through an index in
`0 .. 2`. -/
structure Arr3 (α : Type) where
  e0 : α
  e1 : α
  e2 : α
deriving DecidableEq

/-- The element `a[i]`. -/
def Arr3.get {α : Type} (a : Arr3 α) (i : Fin 3) : α :=
  match i with
  | 0 => a.e0
  | 1 => a.e1
  | 2 => a.e2

/-- The array after the assignment `a[i] = v`. -/
def Arr3.set {α : Type} (a : Arr3 α) (i : Fin 3) (v : α) : Arr3 α :=
  match i with
  | 0 => ⟨v, a.e1, a.e2⟩
  | 1 => ⟨a.e0, v, a.e2⟩
  | 2 => ⟨a.e0, a.e1, v⟩

/-- The class `Board`: the array `Mass mass_[BOARD_SIZE][BOARD_SIZE]`, indexed
`mass_[y][x]` (row first). -/
structure Board where
  mass_ : Arr3 (Arr3 Mass)
deriving DecidableEq

/-- The values `0, 1, 2` taken by a loop `for (int k = 0; k < BOARD_SIZE; k++)`. -/
def idx : List (Fin 3) := [0, 1, 2]

/-- The coordinates `(i, j)` visited by two nested loops
`for (i = 0 ..) for (j = 0 ..)`, in the order they are visited. -/
def cells : List (Fin 3 × Fin 3) :=
  [(0, 0), (0, 1), (0, 2), (1, 0), (1, 1), (1, 2), (2, 0), (2, 1), (2, 2)]

namespace Board

/-- A default-constructed board: every cell is `BLANK`. -/
def empty : Board :=
  ⟨⟨⟨Mass.blank, Mass.blank, Mass.blank⟩,
    ⟨Mass.blank, Mass.blank, Mass.blank⟩,
    ⟨Mass.blank, Mass.blank, Mass.blank⟩⟩⟩

/-- The cell `mass_[y][x]`. -/
def mass (b : Board) (y x : Fin 3) : Mass := (b.mass_.get y).get x

/-- Status of the cell `mass_[y][x]`. -/
def status (b : Board) (y x : Fin 3) : Status := (b.mass y x).getStatus

/-- The board after the cell `mass_[y][x]` has been replaced by `m`. -/
def setMass (b : Board) (y x : Fin 3) (m : Mass) : Board :=
  ⟨b.mass_.set y ((b.mass_.get y).set x m)⟩

/-- The statement `mass_[y][x].setStatus(s)`. -/
def setStatus (b : Board) (y x : Fin 3) (s : Status) : Board :=
  b.setMass y x ((b.mass y x).setStatus s)

/-- The three cells of row `y`, by column. -/
def row (b : Board) (y : Fin 3) : Fin 3 → Status := fun x => b.status y x

/-- The three cells of column `x`, by row. -/
def col (b : Board) (x : Fin 3) : Fin 3 → Status := fun y => b.status y x

/-- The cells `mass_[idx][idx]`. -/
def diag (b : Board) : Fin 3 → Status := fun k => b.status k k

/-- The cells `mass_[BOARD_SIZE - 1 - idx][idx]`. -/
def anti (b : Board) : Fin 3 → Status := fun k => b.status (2 - k) k

end Board

/-- The inner loop `for (; x < BOARD_SIZE; x++) if (cell(x) != winner) break;`
started at `x = 1`: the value of `x` when the loop is left. -/
def lineScan (winner : Status) (line : Fin 3 → Status) : Nat :=
  if line 1 ≠ winner then 1
  else if line 2 ≠ winner then 2
  else 3

/-- One line test of `calc_result`: read the first cell, skip the line unless it
is `PLAYER` or `ENEMY`, scan the other two cells, and report the winner when the
scan ran to `BOARD_SIZE`. -/
def lineWinner (line : Fin 3 → Status) : Option WINNER :=
  let winner := line 0
  if winner ≠ Status.PLAYER ∧ winner ≠ Status.ENEMY then none
  else if lineScan winner line = BOARD_SIZE then some winner.toWINNER
  else none

/-- The member `Board::calc_result`: rows, then columns, then the two diagonals,
then the scan for a `BLANK` cell. -/
def Board.calc_result (b : Board) : WINNER :=
  match idx.findSome? (fun y => lineWinner (b.row y)) with
  | some w => w
  | none =>
  match idx.findSome? (fun x => lineWinner (b.col x)) with
  | some w => w
  | none =>
  match lineWinner b.diag with
  | some w => w
  | none =>
  match lineWinner b.anti with
  | some w => w
  | none =>
    if cells.any (fun c => decide (b.status c.1 c.2 = Status.BLANK)) then WINNER.NOT_FINISHED
    else WINNER.DRAW

/-- The array index denoted by two C++ `int`s, when both lie in `0 .. 2`. -/
def cellAt? (r c : Int) : Option (Fin 3 × Fin 3) :=
  if hr : 0 ≤ r ∧ r < 3 then
    if hc : 0 ≤ c ∧ c < 3 then
      some (⟨r.toNat, by omega⟩, ⟨c.toNat, by omega⟩)
    else none
  else none

/-- The member `Board::put(int x, int y)`: `x` is the column and `y` the row. -/
def Board.put (b : Board) (x y : Int) : Bool × Board :=
  if x < 0 ∨ (BOARD_SIZE : Int) ≤ x ∨ y < 0 ∨ (BOARD_SIZE : Int) ≤ y then (false, b)
  else
    match cellAt? y x with
    | none => (false, b)
    | some (r, c) =>
      let p := (b.mass r c).put Status.PLAYER
      (p.1, b.setMass r c p.2)

/-! ## The computer players -/

/-- The loop of `AI_ordered::think` over the cells still to be tried: the first
cell whose `put(ENEMY)` succeeds ends the function with `true`. -/
def AI_ordered.thinkLoop (b : Board) : List (Fin 3 × Fin 3) → Bool × Board
  | [] => (false, b)
  | c :: rest =>
    let p := (b.mass c.1 c.2).put Status.ENEMY
    let b1 := b.setMass c.1 c.2 p.2
    if p.1 then (true, b1) else AI_ordered.thinkLoop b1 rest

/-- The member `AI_ordered::think(Board& b)`. -/
def AI_ordered.think (b : Board) : Bool × Board :=
  AI_ordered.thinkLoop b cells

/-- The member `AI_minimax::evaluate`. -/
def AI_minimax.evaluate (b : Board) : Int :=
  if b.calc_result = WINNER.PLAYER then -10
  else if b.calc_result = WINNER.ENEMY then 10
  else 0

/-- The member `AI_minimax::isMovesLeft`. -/
def AI_minimax.isMovesLeft (b : Board) : Bool :=
  cells.any (fun c => decide (b.status c.1 c.2 = Status.BLANK))

/-- Two nested `for` loops whose body may fail to produce a state (the body
contains a recursive call that can run out of fuel). -/
def forCells {σ : Type} (body : σ → Fin 3 × Fin 3 → Option σ) :
    List (Fin 3 × Fin 3) → σ → Option σ
  | [], s => some s
  | c :: rest, s =>
    match body s c with
    | none => none
    | some s1 => forCells body rest s1

/-- The value that a 32-bit `int` holds after an addition or subtraction whose exact
result is `z`: the representative of `z` modulo `2^32` in `-2^31 .. 2^31 - 1`
(two's complement).  It is `z` itself whenever `z` is representable. -/
def wrapInt (z : Int) : Int :=
  (z + 2147483648) % 4294967296 - 2147483648

/-- The member `AI_minimax::minimax(Board& b, int depth, bool isMax)`, with the
board passed through every call: the result is the returned score and the board
as the call leaves it.  The first argument bounds the recursion depth; `none`
means the bound was too small.  The operations `score - depth`, `score + depth`
and `depth + 1` are operations on 32-bit `int`s. -/
def AI_minimax.minimaxF : Nat → Board → Int → Bool → Option (Int × Board)
  | 0, _, _, _ => none
  | fuel + 1, b, depth, isMax =>
    let score := AI_minimax.evaluate b
    if score = 10 then some (wrapInt (score - depth), b)
    else if score = -10 then some (wrapInt (score + depth), b)
    else if !AI_minimax.isMovesLeft b then some (0, b)
    else if isMax then
      forCells (fun (st : Int × Board) c =>
        if st.2.status c.1 c.2 = Status.BLANK then
          match AI_minimax.minimaxF fuel (st.2.setStatus c.1 c.2 Status.ENEMY)
              (wrapInt (depth + 1)) (!isMax) with
          | none => none
          | some r => some (max st.1 r.1, r.2.setStatus c.1 c.2 Status.BLANK)
        else some st) cells (-1000, b)
    else
      forCells (fun (st : Int × Board) c =>
        if st.2.status c.1 c.2 = Status.BLANK then
          match AI_minimax.minimaxF fuel (st.2.setStatus c.1 c.2 Status.PLAYER)
              (wrapInt (depth + 1)) (!isMax) with
          | none => none
          | some r => some (min st.1 r.1, r.2.setStatus c.1 c.2 Status.BLANK)
        else some st) cells (1000, b)

/-- Recursion bound used for every search: one more than the number of cells, so
that a search can place a mark on every cell and still evaluate the full board. -/
def searchFuel : Nat := BOARD_SIZE * BOARD_SIZE + 1

/-- The member `AI_minimax::minimax` on a 3×3 board. -/
def AI_minimax.minimax (b : Board) (depth : Int) (isMax : Bool) : Option (Int × Board) :=
  AI_minimax.minimaxF searchFuel b depth isMax

/-- How a run of `AI_minimax::think` can end: with a return value and a board,
with the recursion bound of the model exhausted, or with a write to
`mass_[r][c]` for indices outside the array (undefined behaviour in C++). -/
inductive Run (α : Type) where
  | ok (a : α)
  | outOfFuel
  | outOfBounds

/-- The local variables of `AI_minimax::think` together with the board. -/
structure ThinkState where
  b : Board
  bestVal : Int
  bestMoveRow : Int
  bestMoveCol : Int

/-- The body of the two nested loops of `AI_minimax::think` at the cell `c`. -/
def AI_minimax.thinkBody (st : ThinkState) (c : Fin 3 × Fin 3) : Option ThinkState :=
  if st.b.status c.1 c.2 = Status.BLANK then
    match AI_minimax.minimax (st.b.setStatus c.1 c.2 Status.ENEMY) 0 false with
    | none => none
    | some r =>
      let moveVal := r.1
      let b1 := r.2.setStatus c.1 c.2 Status.BLANK
      if moveVal > st.bestVal then some ⟨b1, moveVal, (c.1.val : Int), (c.2.val : Int)⟩
      else some ⟨b1, st.bestVal, st.bestMoveRow, st.bestMoveCol⟩
  else some st

/-- The state of `AI_minimax::think` when its loops are left. -/
def AI_minimax.thinkScan (b : Board) : Option ThinkState :=
  forCells AI_minimax.thinkBody cells ⟨b, -1000, -1, -1⟩

/-- The member `AI_minimax::think(Board& b)`. -/
def AI_minimax.think (b : Board) : Run (Bool × Board) :=
  match AI_minimax.thinkScan b with
  | none => Run.outOfFuel
  | some st =>
    match cellAt? st.bestMoveRow st.bestMoveCol with
    | none => Run.outOfBounds
    | some (r, c) => Run.ok (true, st.b.setStatus r c Status.ENEMY)

/-! ## Game and the loop of `main` -/

/-- The enumeration `AI::type`. -/
inductive AI.type where
  | TYPE_ORDERED
  | TYPE_MINIMAX
deriving DecidableEq

/-- The virtual call `pAI_->think(board_)` on the object made by
`AI::createAi(type)`. -/
def AI.think (t : AI.type) (b : Board) : Run (Bool × Board) :=
  match t with
  | AI.type.TYPE_ORDERED => Run.ok (AI_ordered.think b)
  | AI.type.TYPE_MINIMAX => AI_minimax.think b

/-- The class `Game`: the board and the cached winner. -/
structure Game where
  board_ : Board
  winner_ : WINNER
deriving DecidableEq

namespace Game

/-- The constant member `ai_type`. -/
def ai_type : AI.type := AI.type.TYPE_MINIMAX

/-- A freshly constructed `Game`. -/
def new : Game := ⟨Board.empty, WINNER.NOT_FINISHED⟩

/-- The member `Game::put(int x, int y)`. -/
def put (g : Game) (x y : Int) : Bool × Game :=
  let p := g.board_.put x y
  if p.1 then (true, ⟨p.2, p.2.calc_result⟩)
  else (false, ⟨p.2, g.winner_⟩)

/-- The member `Game::think()`. -/
def think (g : Game) : Run (Bool × Game) :=
  match AI.think ai_type g.board_ with
  | Run.ok p =>
    if p.1 then Run.ok (true, ⟨p.2, p.2.calc_result⟩)
    else Run.ok (false, ⟨p.2, g.winner_⟩)
  | Run.outOfFuel => Run.outOfFuel
  | Run.outOfBounds => Run.outOfBounds

/-- The member `Game::is_finished()`. -/
def is_finished (g : Game) : WINNER := g.winner_

end Game

/-- The loop `do { std::cin >> row >> col; } while (!game->put(row - '1', col - 'a'))`
of `main`: the human may type anything; the loop is left after the first
accepted `put`. -/
inductive UserTurn : Game → Game → Prop where
  | accepted (g g1 : Game) (x y : Int) :
      g.put x y = (true, g1) → UserTurn g g1
  | rejected (g g1 g2 : Game) (x y : Int) :
      g.put x y = (false, g1) → UserTurn g1 g2 → UserTurn g g2

/-- One pass through the body of `while (1)` in `main` that reaches
`turn = 1 - turn`: the game is not finished, and either the human (turn 0) or
the computer (turn 1) moves. -/
inductive Iteration : Game × Nat → Game × Nat → Prop where
  | user (g g1 : Game) :
      g.is_finished = WINNER.NOT_FINISHED → UserTurn g g1 → Iteration (g, 0) (g1, 1 - 0)
  | computer (g g1 : Game) :
      g.is_finished = WINNER.NOT_FINISHED → g.think = Run.ok (true, g1) →
      Iteration (g, 1) (g1, 1 - 1)

/-- The states `(game, turn)` in which the body of `while (1)` is entered during
one game session of `main`. -/
inductive Reached : Game × Nat → Prop where
  | start : Reached (Game.new, 0)
  | next (s s1 : Game × Nat) : Reached s → Iteration s s1 → Reached s1

/-- The argument of `show_end_message` when the pass through the loop body
entered in state `s` ends the session with `break`: the cached winner when it is
not `NOT_FINISHED`, and `PLAYER` when the computer's `think` returns `false`. -/
def endMessage (s : Game × Nat) : Option WINNER :=
  if s.1.is_finished ≠ WINNER.NOT_FINISHED then some s.1.is_finished
  else if s.2 = 0 then none
  else
    match s.1.think with
    | Run.ok (false, _) => some WINNER.PLAYER
    | _ => none

/-! ## Game-theoretic notions -/

/-- Number of `BLANK` cells of a board. -/
def Board.blanks (b : Board) : Nat :=
  cells.countP (fun c => decide (b.status c.1 c.2 = Status.BLANK))

/-- The assertion `Secures ok secondToMove b`: in the position `b`, with the
computer (Second, `ENEMY`) to move when `secondToMove` and the human (First,
`PLAYER`) to move otherwise, Second has a strategy under which every play ends,
whatever legal moves First makes, with an outcome `w` of `calc_result` that
satisfies `ok w`.  A move of Second marks a `BLANK` cell `ENEMY`; a move of First
is an accepted `Board::put`. -/
inductive Secures (ok : WINNER → Prop) : Bool → Board → Prop where
  | over (t : Bool) (b : Board) :
      b.calc_result ≠ WINNER.NOT_FINISHED → ok b.calc_result → Secures ok t b
  | second (b : Board) (y x : Fin 3) :
      b.calc_result = WINNER.NOT_FINISHED → b.status y x = Status.BLANK →
      Secures ok false (b.setStatus y x Status.ENEMY) → Secures ok true b
  | first (b : Board) :
      b.calc_result = WINNER.NOT_FINISHED →
      (∀ (x y : Int) (b1 : Board), b.put x y = (true, b1) → Secures ok true b1) →
      Secures ok false b

/-- Second can force a win: every play under Second's strategy ends with `ENEMY`. -/
def ForcedWin (secondToMove : Bool) (b : Board) : Prop :=
  Secures (fun w => w = WINNER.ENEMY) secondToMove b

/-- Second can avoid defeat: every play under Second's strategy ends with
`ENEMY` or `DRAW`. -/
def Holds (secondToMove : Bool) (b : Board) : Prop :=
  Secures (fun w => w = WINNER.ENEMY ∨ w = WINNER.DRAW) secondToMove b

/-- Every alternating play from `b` in which the computer moves next, each of its
moves being the one made by `AI_minimax::think`, and the human answers with any
accepted `Board::put`, ends, and ends with `calc_result() == ENEMY`. -/
inductive ThinkAlwaysWins : Board → Prop where
  | wins (b b1 : Board) :
      AI_minimax.think b = Run.ok (true, b1) → b1.calc_result = WINNER.ENEMY →
      ThinkAlwaysWins b
  | goesOn (b b1 : Board) :
      AI_minimax.think b = Run.ok (true, b1) → b1.calc_result = WINNER.NOT_FINISHED →
      (∀ (x y : Int) (b2 : Board), b1.put x y = (true, b2) →
        b2.calc_result = WINNER.NOT_FINISHED) →
      (∀ (x y : Int) (b2 : Board), b1.put x y = (true, b2) → ThinkAlwaysWins b2) →
      ThinkAlwaysWins b

/-- The search of `AI_minimax::minimax` on immutable boards: each trial position is
a fresh board, and only the score is returned.  Scores and depths are exact
integers here. -/
def scoreF : Nat → Board → Int → Bool → Int
  | 0, _, _, _ => 0
  | fuel + 1, b, depth, isMax =>
    let score := AI_minimax.evaluate b
    if score = 10 then score - depth
    else if score = -10 then score + depth
    else if !AI_minimax.isMovesLeft b then 0
    else if isMax then
      cells.foldl (fun best c =>
        if b.status c.1 c.2 = Status.BLANK then
          max best (scoreF fuel (b.setStatus c.1 c.2 Status.ENEMY) (depth + 1) (!isMax))
        else best) (-1000)
    else
      cells.foldl (fun best c =>
        if b.status c.1 c.2 = Status.BLANK then
          min best (scoreF fuel (b.setStatus c.1 c.2 Status.PLAYER) (depth + 1) (!isMax))
        else best) 1000

/-- The score `moveVal` that `AI_minimax::think` obtains for the trial move on
cell `c`. -/
def trialScore (b : Board) (c : Fin 3 × Fin 3) : Int :=
  scoreF searchFuel (b.setStatus c.1 c.2 Status.ENEMY) 0 false

/-- The cell `a` is visited before the cell `b` by two nested loops over rows and
columns (row-major order). -/
def rowMajorBefore (a b : Fin 3 × Fin 3) : Prop :=
  a.1 < b.1 ∨ (a.1 = b.1 ∧ a.2 < b.2)

instance (a b : Fin 3 × Fin 3) : Decidable (rowMajorBefore a b) :=
  inferInstanceAs (Decidable (a.1 < b.1 ∨ (a.1 = b.1 ∧ a.2 < b.2)))

/-- The eight lines of the grid (three rows, three columns, two diagonals), each
given by the coordinates `(row, column)` of its three cells. -/
def lineCells : List (List (Fin 3 × Fin 3)) :=
  [[(0, 0), (0, 1), (0, 2)], [(1, 0), (1, 1), (1, 2)], [(2, 0), (2, 1), (2, 2)],
   [(0, 0), (1, 0), (2, 0)], [(0, 1), (1, 1), (2, 1)], [(0, 2), (1, 2), (2, 2)],
   [(0, 0), (1, 1), (2, 2)], [(2, 0), (1, 1), (0, 2)]]

/-- One of the eight lines holds three cells that all have status `s`. -/
def Board.hasLine (b : Board) (s : Status) : Prop :=
  ∃ l ∈ lineCells, ∀ c ∈ l, b.status c.1 c.2 = s

instance (b : Board) (s : Status) : Decidable (b.hasLine s) :=
  inferInstanceAs (Decidable (∃ l ∈ lineCells, ∀ c ∈ l, b.status c.1 c.2 = s))

/-- The eight lines in the order in which `calc_result` tests them. -/
def Board.lineFns (b : Board) : List (Fin 3 → Status) :=
  [b.row 0, b.row 1, b.row 2, b.col 0, b.col 1, b.col 2, b.diag, b.anti]

/-- All three cells of a line have status `s`. -/
def full3 (line : Fin 3 → Status) (s : Status) : Prop :=
  line 0 = s ∧ line 1 = s ∧ line 2 = s

/-- A full board without a complete line, used as a concrete example:
rows `P E P`, `P E E`, `E P P`. -/
def drawnBoard : Board :=
  ⟨⟨⟨⟨Status.PLAYER⟩, ⟨Status.ENEMY⟩, ⟨Status.PLAYER⟩⟩,
    ⟨⟨Status.PLAYER⟩, ⟨Status.ENEMY⟩, ⟨Status.ENEMY⟩⟩,
    ⟨⟨Status.ENEMY⟩, ⟨Status.PLAYER⟩, ⟨Status.PLAYER⟩⟩⟩⟩

/-- The loops of `AI_minimax::think` on an immutable board: the triple
`(bestVal, bestMoveRow, bestMoveCol)` after the cells `cs` have been visited,
starting from `init`. -/
def bestFold (b : Board) (cs : List (Fin 3 × Fin 3)) (init : Int × Int × Int) :
    Int × Int × Int :=
  cs.foldl (fun st c =>
    if b.status c.1 c.2 = Status.BLANK then
      if trialScore b c > st.1 then (trialScore b c, (c.1.val : Int), (c.2.val : Int))
      else st
    else st) init

/-! ## A decision procedure for `Secures`

The procedure below explores the game tree with functions that compute by
pattern matching only, so that it can be evaluated inside a proof; it is proved
to agree with `Secures`, which is stated on `calc_result` and `Board::put`. -/

/-- The line test of `lineWinner`, by cases on the three cells. -/
def fastLine : Status → Status → Status → Option WINNER
  | Status.PLAYER, Status.PLAYER, Status.PLAYER => some WINNER.PLAYER
  | Status.ENEMY, Status.ENEMY, Status.ENEMY => some WINNER.ENEMY
  | _, _, _ => none

/-- The first of two optional winners. -/
def firstOf : Option WINNER → Option WINNER → Option WINNER
  | some w, _ => some w
  | none, o => o

/-- Test for `BLANK`, by cases. -/
def Status.isBlank : Status → Bool
  | Status.BLANK => true
  | _ => false

/-- The value of `calc_result`, computed by cases on the nine cells. -/
def Board.fastResult (b : Board) : WINNER :=
  match b with
  | ⟨⟨⟨⟨a0⟩, ⟨a1⟩, ⟨a2⟩⟩, ⟨⟨a3⟩, ⟨a4⟩, ⟨a5⟩⟩, ⟨⟨a6⟩, ⟨a7⟩, ⟨a8⟩⟩⟩⟩ =>
    match firstOf (fastLine a0 a1 a2) (firstOf (fastLine a3 a4 a5) (firstOf (fastLine a6 a7 a8)
      (firstOf (fastLine a0 a3 a6) (firstOf (fastLine a1 a4 a7) (firstOf (fastLine a2 a5 a8)
      (firstOf (fastLine a0 a4 a8) (fastLine a6 a4 a2))))))) with
    | some w => w
    | none =>
      if a0.isBlank || a1.isBlank || a2.isBlank || a3.isBlank || a4.isBlank || a5.isBlank ||
          a6.isBlank || a7.isBlank || a8.isBlank then WINNER.NOT_FINISHED
      else WINNER.DRAW

/-- Pass a status to `k` once it is known which of the three it is. -/
def Status.force {α : Type} (s : Status) (k : Status → α) : α :=
  match s with
  | Status.BLANK => k Status.BLANK
  | Status.PLAYER => k Status.PLAYER
  | Status.ENEMY => k Status.ENEMY

/-- Pass a board to `k` once all of its nine cells are known. -/
def Board.force {α : Type} (b : Board) (k : Board → α) : α :=
  match b with
  | ⟨⟨⟨⟨a0⟩, ⟨a1⟩, ⟨a2⟩⟩, ⟨⟨a3⟩, ⟨a4⟩, ⟨a5⟩⟩, ⟨⟨a6⟩, ⟨a7⟩, ⟨a8⟩⟩⟩⟩ =>
    Status.force a0 fun a0 => Status.force a1 fun a1 => Status.force a2 fun a2 =>
    Status.force a3 fun a3 => Status.force a4 fun a4 => Status.force a5 fun a5 =>
    Status.force a6 fun a6 => Status.force a7 fun a7 => Status.force a8 fun a8 =>
    k ⟨⟨⟨⟨a0⟩, ⟨a1⟩, ⟨a2⟩⟩, ⟨⟨a3⟩, ⟨a4⟩, ⟨a5⟩⟩, ⟨⟨a6⟩, ⟨a7⟩, ⟨a8⟩⟩⟩⟩

/-- The order in which the decision procedure tries Second's moves: centre,
corners, edges. -/
def moveOrder : List (Fin 3 × Fin 3) :=
  [(1, 1), (0, 0), (0, 2), (2, 0), (2, 2), (0, 1), (1, 0), (1, 2), (2, 1)]

/-- Decision procedure for `Secures (fun w => ok w = true)`, exploring at most `n`
further moves. -/
def securesB (ok : WINNER → Bool) : Nat → Bool → Board → Bool
  | 0, _, _ => false
  | n + 1, secondToMove, b0 =>
    Board.force b0 fun b =>
      match b.fastResult with
      | WINNER.NOT_FINISHED =>
        if secondToMove then
          moveOrder.any (fun c =>
            (b.status c.1 c.2).isBlank && securesB ok n false (b.setStatus c.1 c.2 Status.ENEMY))
        else
          cells.all (fun c =>
            !(b.status c.1 c.2).isBlank || securesB ok n true (b.setStatus c.1 c.2 Status.PLAYER))
      | WINNER.PLAYER => ok WINNER.PLAYER
      | WINNER.ENEMY => ok WINNER.ENEMY
      | WINNER.DRAW => ok WINNER.DRAW

/-- The outcomes in which Second is not defeated. -/
def notLost : WINNER → Bool
  | WINNER.ENEMY => true
  | WINNER.DRAW => true
  | _ => false

/-- The outcome in which Second has won. -/
def won : WINNER → Bool
  | WINNER.ENEMY => true
  | _ => false

/-- A position with Second to move in which Second wins at once on `(0,2)`, used as
a concrete example: rows `E E _`, `P P _`, `_ _ P`. -/
def winnableBoard : Board :=
  ⟨⟨⟨⟨Status.ENEMY⟩, ⟨Status.ENEMY⟩, ⟨Status.BLANK⟩⟩,
    ⟨⟨Status.PLAYER⟩, ⟨Status.PLAYER⟩, ⟨Status.BLANK⟩⟩,
    ⟨⟨Status.BLANK⟩, ⟨Status.BLANK⟩, ⟨Status.PLAYER⟩⟩⟩⟩

/-- The check that `a` is the only move of Second on `b` after which Second can
still avoid defeat: `a` is `BLANK`, the decision procedure accepts the position
after marking `a`, and it rejects the position after marking any other `BLANK`
cell. -/
def onlyHoldingMove (b : Board) (a : Fin 3 × Fin 3) : Bool :=
  (b.status a.1 a.2).isBlank &&
  securesB notLost searchFuel false (b.setStatus a.1 a.2 Status.ENEMY) &&
  cells.all (fun c =>
    c == a || !(b.status c.1 c.2).isBlank ||
      !securesB notLost searchFuel false (b.setStatus c.1 c.2 Status.ENEMY))

/-! ### A sample session

The human opens in the corner `(0,0)`, continues with `(0,1)` and `(1,0)`, and the
computer answers `(1,1)`, `(0,2)` and `(2,0)`, completing a diagonal. -/

/-- Sample session, after the human's first move: rows `P _ _`, `_ _ _`, `_ _ _`. -/
def sample1 : Board :=
  ⟨⟨⟨⟨Status.PLAYER⟩, ⟨Status.BLANK⟩, ⟨Status.BLANK⟩⟩,
    ⟨⟨Status.BLANK⟩, ⟨Status.BLANK⟩, ⟨Status.BLANK⟩⟩,
    ⟨⟨Status.BLANK⟩, ⟨Status.BLANK⟩, ⟨Status.BLANK⟩⟩⟩⟩

/-- Sample session, after the computer's first move: rows `P _ _`, `_ E _`, `_ _ _`. -/
def sample2 : Board :=
  ⟨⟨⟨⟨Status.PLAYER⟩, ⟨Status.BLANK⟩, ⟨Status.BLANK⟩⟩,
    ⟨⟨Status.BLANK⟩, ⟨Status.ENEMY⟩, ⟨Status.BLANK⟩⟩,
    ⟨⟨Status.BLANK⟩, ⟨Status.BLANK⟩, ⟨Status.BLANK⟩⟩⟩⟩

/-- Sample session, after the human's second move: rows `P P _`, `_ E _`, `_ _ _`. -/
def sample3 : Board :=
  ⟨⟨⟨⟨Status.PLAYER⟩, ⟨Status.PLAYER⟩, ⟨Status.BLANK⟩⟩,
    ⟨⟨Status.BLANK⟩, ⟨Status.ENEMY⟩, ⟨Status.BLANK⟩⟩,
    ⟨⟨Status.BLANK⟩, ⟨Status.BLANK⟩, ⟨Status.BLANK⟩⟩⟩⟩

/-- Sample session, after the computer's second move: rows `P P E`, `_ E _`, `_ _ _`. -/
def sample4 : Board :=
  ⟨⟨⟨⟨Status.PLAYER⟩, ⟨Status.PLAYER⟩, ⟨Status.ENEMY⟩⟩,
    ⟨⟨Status.BLANK⟩, ⟨Status.ENEMY⟩, ⟨Status.BLANK⟩⟩,
    ⟨⟨Status.BLANK⟩, ⟨Status.BLANK⟩, ⟨Status.BLANK⟩⟩⟩⟩

/-- Sample session, after the human's third move: rows `P P E`, `P E _`, `_ _ _`. -/
def sample5 : Board :=
  ⟨⟨⟨⟨Status.PLAYER⟩, ⟨Status.PLAYER⟩, ⟨Status.ENEMY⟩⟩,
    ⟨⟨Status.PLAYER⟩, ⟨Status.ENEMY⟩, ⟨Status.BLANK⟩⟩,
    ⟨⟨Status.BLANK⟩, ⟨Status.BLANK⟩, ⟨Status.BLANK⟩⟩⟩⟩

/-- Sample session, after the computer's third move: rows `P P E`, `P E _`, `E _ _`. -/
def sample6 : Board :=
  ⟨⟨⟨⟨Status.PLAYER⟩, ⟨Status.PLAYER⟩, ⟨Status.ENEMY⟩⟩,
    ⟨⟨Status.PLAYER⟩, ⟨Status.ENEMY⟩, ⟨Status.BLANK⟩⟩,
    ⟨⟨Status.ENEMY⟩, ⟨Status.BLANK⟩, ⟨Status.BLANK⟩⟩⟩⟩

/-! ## Further notions: snapshots, values, sequences of calls -/

/-- The game-theoretic value of a position for Second, by minimax over the game
tree: `1` for a win of Second, `-1` for a win of First, `0` for a draw; Second
maximises and First minimises.  The first argument bounds the number of further
moves explored. -/
def gameValueF : Nat → Bool → Board → Int
  | 0, _, _ => 0
  | n + 1, secondToMove, b =>
    match b.calc_result with
    | WINNER.ENEMY => 1
    | WINNER.PLAYER => -1
    | WINNER.DRAW => 0
    | WINNER.NOT_FINISHED =>
      if secondToMove then
        cells.foldl (fun best c =>
          if b.status c.1 c.2 = Status.BLANK then
            max best (gameValueF n false (b.setStatus c.1 c.2 Status.ENEMY))
          else best) (-1)
      else
        cells.foldl (fun best c =>
          if b.status c.1 c.2 = Status.BLANK then
            min best (gameValueF n true (b.setStatus c.1 c.2 Status.PLAYER))
          else best) 1

/-- The game-theoretic value of a position of the 3×3 game. -/
def gameValue (secondToMove : Bool) (b : Board) : Int :=
  gameValueF searchFuel secondToMove b

/-- Every play from `b` ends, and ends with `calc_result() == DRAW`, when each move
of the computer is the one made by `AI_minimax::think` and each move of the human
is an accepted `Board::put` that minimises the game-theoretic value of the
resulting position among all accepted `put`s.  The flag tells whether the computer
is to move. -/
inductive OptimalPlayDraws : Bool → Board → Prop where
  | drawn (t : Bool) (b : Board) :
      b.calc_result = WINNER.DRAW → OptimalPlayDraws t b
  | human (b : Board) :
      b.calc_result = WINNER.NOT_FINISHED →
      (∀ (x y : Int) (b1 : Board), b.put x y = (true, b1) →
        (∀ (x1 y1 : Int) (b2 : Board), b.put x1 y1 = (true, b2) →
          gameValue true b1 ≤ gameValue true b2) →
        OptimalPlayDraws true b1) →
      OptimalPlayDraws false b
  | computer (b b1 : Board) :
      b.calc_result = WINNER.NOT_FINISHED →
      AI_minimax.think b = Run.ok (true, b1) →
      OptimalPlayDraws false b1 →
      OptimalPlayDraws true b

/-- The games obtained from a freshly constructed `Game` by a sequence of calls of
`Game::put` and `Game::think`, whatever they return, `think` being called only
while the board has a `BLANK` cell. -/
inductive AfterCalls : Game → Prop where
  | fresh : AfterCalls Game.new
  | put (g g1 : Game) (x y : Int) (ret : Bool) :
      AfterCalls g → g.put x y = (ret, g1) → AfterCalls g1
  | think (g g1 : Game) (ret : Bool) :
      AfterCalls g → (∃ r c : Fin 3, g.board_.status r c = Status.BLANK) →
      g.think = Run.ok (ret, g1) → AfterCalls g1

/-- A won position with `BLANK` cells left, used as a concrete example: rows
`E E E`, `P P _`, `_ _ _`. -/
def wonBoard : Board :=
  ⟨⟨⟨⟨Status.ENEMY⟩, ⟨Status.ENEMY⟩, ⟨Status.ENEMY⟩⟩,
    ⟨⟨Status.PLAYER⟩, ⟨Status.PLAYER⟩, ⟨Status.BLANK⟩⟩,
    ⟨⟨Status.BLANK⟩, ⟨Status.BLANK⟩, ⟨Status.BLANK⟩⟩⟩⟩

/-- A position in which the computer must block on `(0,2)`, used as a concrete
example: rows `P P _`, `_ E _`, `_ _ _` (the board `sample3`). -/
def blockBoard : Board := sample3

/-! # Theorems -/

/-! ## Arrays and boards: reading after writing -/

theorem Arr3.get_set {α : Type} (a : Arr3 α) (i j : Fin 3) (v : α) :
    (a.set i v).get j = if j = i then v else a.get j := by
  fin_cases i <;> fin_cases j <;> rfl

theorem Arr3.ext_get {α : Type} (a a1 : Arr3 α) (h : ∀ i, a.get i = a1.get i) : a = a1 := by
  cases a
  cases a1
  have h0 := h 0
  have h1 := h 1
  have h2 := h 2
  simp only [Arr3.get] at h0 h1 h2
  subst h0 h1 h2
  rfl

theorem Board.mass_setMass (b : Board) (y x r c : Fin 3) (m : Mass) :
    (b.setMass y x m).mass r c = if r = y ∧ c = x then m else b.mass r c := by
  unfold Board.setMass Board.mass
  simp only [Arr3.get_set]
  by_cases hr : r = y
  · subst hr
    by_cases hc : c = x <;> simp [hc, Arr3.get_set]
  · simp [hr]

theorem Board.status_setStatus (b : Board) (y x r c : Fin 3) (s : Status) :
    (b.setStatus y x s).status r c = if r = y ∧ c = x then s else b.status r c := by
  unfold Board.setStatus Board.status
  rw [Board.mass_setMass]
  split <;> rfl

theorem Board.ext_mass (b b1 : Board) (h : ∀ r c, b.mass r c = b1.mass r c) : b = b1 := by
  cases b with
  | mk m =>
  cases b1 with
  | mk m1 =>
  congr 1
  apply Arr3.ext_get
  intro i
  apply Arr3.ext_get
  intro j
  exact h i j

theorem Board.ext_status (b b1 : Board) (h : ∀ r c, b.status r c = b1.status r c) : b = b1 := by
  apply Board.ext_mass
  intro r c
  have := h r c
  unfold Board.status Mass.getStatus at this
  cases hm : b.mass r c
  cases hm1 : b1.mass r c
  rw [hm, hm1] at this
  simp at this
  rw [this]

theorem Board.setStatus_revert (b : Board) (y x : Fin 3) (s : Status)
    (h : b.status y x = Status.BLANK) :
    (b.setStatus y x s).setStatus y x Status.BLANK = b := by
  apply Board.ext_status
  intro r c
  rw [Board.status_setStatus, Board.status_setStatus]
  by_cases hc : r = y ∧ c = x
  · rw [if_pos hc, hc.1, hc.2, h]
  · rw [if_neg hc, if_neg hc]

theorem Board.setMass_self (b : Board) (y x : Fin 3) : b.setMass y x (b.mass y x) = b := by
  apply Board.ext_mass
  intro r c
  rw [Board.mass_setMass]
  split
  · next hc => rw [hc.1, hc.2]
  · rfl

/-! ## `Mass::put` and `Board::put` -/

theorem Mass.put_of_blank (m : Mass) (s : Status) (h : m.getStatus = Status.BLANK) :
    m.put s = (true, ⟨s⟩) := by
  unfold Mass.getStatus at h
  simp [Mass.put, h]

theorem Mass.put_of_taken (m : Mass) (s : Status) (h : m.getStatus ≠ Status.BLANK) :
    m.put s = (false, m) := by
  unfold Mass.getStatus at h
  simp [Mass.put, h]

theorem cellAt?_val (r c : Fin 3) : cellAt? (r.val : Int) (c.val : Int) = some (r, c) := by
  have hr := r.isLt
  have hc := c.isLt
  unfold cellAt?
  rw [dif_pos (by omega), dif_pos (by omega)]
  simp

theorem cellAt?_some (r c : Int) (p : Fin 3 × Fin 3) (h : cellAt? r c = some p) :
    r = (p.1.val : Int) ∧ c = (p.2.val : Int) := by
  unfold cellAt? at h
  split at h
  · split at h
    · next hr hc =>
      simp at h
      subst h
      simp
      omega
    · simp at h
  · simp at h

theorem cellAt?_none (r c : Int) (h : cellAt? r c = none) :
    r < 0 ∨ 3 ≤ r ∨ c < 0 ∨ 3 ≤ c := by
  unfold cellAt? at h
  split at h
  · split at h
    · simp at h
    · omega
  · omega

theorem Board.put_outside (b : Board) (x y : Int) (h : x < 0 ∨ 3 ≤ x ∨ y < 0 ∨ 3 ≤ y) :
    b.put x y = (false, b) := by
  unfold Board.put BOARD_SIZE
  rw [if_pos (by simpa using h)]

theorem Board.put_blank (b : Board) (r c : Fin 3) (h : b.status r c = Status.BLANK) :
    b.put (c.val : Int) (r.val : Int) = (true, b.setStatus r c Status.PLAYER) := by
  have hr := r.isLt
  have hc := c.isLt
  unfold Board.put BOARD_SIZE
  rw [if_neg (by omega), cellAt?_val]
  simp only
  rw [Mass.put_of_blank _ _ h]
  rfl

theorem Board.put_taken (b : Board) (r c : Fin 3) (h : b.status r c ≠ Status.BLANK) :
    b.put (c.val : Int) (r.val : Int) = (false, b) := by
  have hr := r.isLt
  have hc := c.isLt
  unfold Board.put BOARD_SIZE
  rw [if_neg (by omega), cellAt?_val]
  simp only
  rw [Mass.put_of_taken _ _ h, Board.setMass_self]

/-- An accepted `Board::put` marks a `BLANK` cell `PLAYER`. -/
theorem Board.put_true (b b1 : Board) (x y : Int) (h : b.put x y = (true, b1)) :
    ∃ r c : Fin 3, x = (c.val : Int) ∧ y = (r.val : Int) ∧ b.status r c = Status.BLANK ∧
      b1 = b.setStatus r c Status.PLAYER := by
  cases hcell : cellAt? y x with
  | none =>
    have := Board.put_outside b x y (by have := cellAt?_none y x hcell; omega)
    rw [this] at h
    simp at h
  | some p =>
    obtain ⟨hy, hx⟩ := cellAt?_some y x p hcell
    refine ⟨p.1, p.2, hx, hy, ?_⟩
    by_cases hb : b.status p.1 p.2 = Status.BLANK
    · rw [hx, hy, Board.put_blank b _ _ hb] at h
      simp at h
      exact ⟨hb, h.symm⟩
    · rw [hx, hy, Board.put_taken b _ _ hb] at h
      simp at h

/-- A rejected `Board::put` leaves the board as it was. -/
theorem Board.put_false (b b1 : Board) (x y : Int) (h : b.put x y = (false, b1)) : b1 = b := by
  cases hcell : cellAt? y x with
  | none =>
    have := Board.put_outside b x y (by have := cellAt?_none y x hcell; omega)
    rw [this] at h
    simp at h
    exact h.symm
  | some p =>
    obtain ⟨hy, hx⟩ := cellAt?_some y x p hcell
    by_cases hb : b.status p.1 p.2 = Status.BLANK
    · rw [hx, hy, Board.put_blank b _ _ hb] at h
      simp at h
    · rw [hx, hy, Board.put_taken b _ _ hb] at h
      simp at h
      exact h.symm

/-! ## The list of cells -/

theorem mem_cells (c : Fin 3 × Fin 3) : c ∈ cells := by
  revert c
  decide

theorem cells_pairwise : cells.Pairwise rowMajorBefore := by
  decide

theorem rowMajorBefore_asymm (a b : Fin 3 × Fin 3) (h : rowMajorBefore a b) :
    ¬ rowMajorBefore b a := by
  revert a b
  decide

/-- In a splitting `cells = l1 ++ c :: l2`, the part `l1` holds exactly the cells
visited before `c`. -/
theorem cells_split_before (l1 l2 : List (Fin 3 × Fin 3)) (c : Fin 3 × Fin 3)
    (h : cells = l1 ++ c :: l2) (a : Fin 3 × Fin 3) :
    a ∈ l1 ↔ rowMajorBefore a c := by
  have hp := cells_pairwise
  rw [h, List.pairwise_append] at hp
  obtain ⟨_, hp2, hp3⟩ := hp
  rw [List.pairwise_cons] at hp2
  constructor
  · intro ha
    exact hp3 a ha c (List.mem_cons_self _ _)
  · intro ha
    have hm := mem_cells a
    rw [h, List.mem_append, List.mem_cons] at hm
    rcases hm with hm | hm | hm
    · exact hm
    · subst hm
      exact absurd ha (rowMajorBefore_asymm _ _ ha)
    · exact absurd ha (rowMajorBefore_asymm _ _ (hp2.1 a hm))

/-- A list with a `BLANK` cell splits at its first `BLANK` cell. -/
theorem first_blank_split (b : Board) (cs : List (Fin 3 × Fin 3))
    (h : ∃ c ∈ cs, b.status c.1 c.2 = Status.BLANK) :
    ∃ l1 c l2, cs = l1 ++ c :: l2 ∧ (∀ a ∈ l1, b.status a.1 a.2 ≠ Status.BLANK) ∧
      b.status c.1 c.2 = Status.BLANK := by
  induction cs with
  | nil => simp at h
  | cons d rest ih =>
    by_cases hd : b.status d.1 d.2 = Status.BLANK
    · exact ⟨[], d, rest, rfl, by simp, hd⟩
    · have : ∃ c ∈ rest, b.status c.1 c.2 = Status.BLANK := by
        obtain ⟨c, hc, hb⟩ := h
        rw [List.mem_cons] at hc
        rcases hc with hc | hc
        · subst hc
          exact absurd hb hd
        · exact ⟨c, hc, hb⟩
      obtain ⟨l1, c, l2, hsplit, hl1, hc⟩ := ih this
      refine ⟨d :: l1, c, l2, by rw [hsplit]; rfl, ?_, hc⟩
      intro a ha
      rw [List.mem_cons] at ha
      rcases ha with ha | ha
      · subst ha
        exact hd
      · exact hl1 a ha

/-! ## `AI_ordered::think` -/

theorem AI_ordered.thinkLoop_full (b : Board) (cs : List (Fin 3 × Fin 3))
    (h : ∀ c ∈ cs, b.status c.1 c.2 ≠ Status.BLANK) :
    AI_ordered.thinkLoop b cs = (false, b) := by
  induction cs with
  | nil => rfl
  | cons d rest ih =>
    unfold AI_ordered.thinkLoop
    have hd := h d (List.mem_cons_self _ _)
    simp only [Mass.put_of_taken _ _ hd, Board.setMass_self]
    exact ih (fun c hc => h c (List.mem_cons_of_mem _ hc))

theorem AI_ordered.thinkLoop_first (b : Board) (l1 l2 : List (Fin 3 × Fin 3))
    (c : Fin 3 × Fin 3) (h1 : ∀ a ∈ l1, b.status a.1 a.2 ≠ Status.BLANK)
    (hc : b.status c.1 c.2 = Status.BLANK) :
    AI_ordered.thinkLoop b (l1 ++ c :: l2) = (true, b.setStatus c.1 c.2 Status.ENEMY) := by
  induction l1 with
  | nil =>
    simp only [List.nil_append]
    unfold AI_ordered.thinkLoop
    simp only [Mass.put_of_blank _ _ hc]
    rfl
  | cons d rest ih =>
    simp only [List.cons_append]
    unfold AI_ordered.thinkLoop
    have hd := h1 d (List.mem_cons_self _ _)
    simp only [Mass.put_of_taken _ _ hd, Board.setMass_self]
    exact ih (fun a ha => h1 a (List.mem_cons_of_mem _ ha))

/-! ## `Board::calc_result` -/

theorem lineWinner_player (line : Fin 3 → Status) :
    lineWinner line = some WINNER.PLAYER ↔ full3 line Status.PLAYER := by
  unfold lineWinner lineScan full3 BOARD_SIZE
  generalize line 0 = a
  generalize line 1 = b
  generalize line 2 = c
  cases a <;> cases b <;> cases c <;> simp [Status.toWINNER]

theorem lineWinner_enemy (line : Fin 3 → Status) :
    lineWinner line = some WINNER.ENEMY ↔ full3 line Status.ENEMY := by
  unfold lineWinner lineScan full3 BOARD_SIZE
  generalize line 0 = a
  generalize line 1 = b
  generalize line 2 = c
  cases a <;> cases b <;> cases c <;> simp [Status.toWINNER]

theorem lineWinner_some (line : Fin 3 → Status) (w : WINNER) (h : lineWinner line = some w) :
    w = WINNER.PLAYER ∨ w = WINNER.ENEMY := by
  revert h
  unfold lineWinner lineScan BOARD_SIZE
  generalize line 0 = a
  generalize line 1 = b
  generalize line 2 = c
  cases a <;> cases b <;> cases c <;> simp [Status.toWINNER] <;> intro h <;> simp [← h]

theorem lineWinner_none (line : Fin 3 → Status) :
    lineWinner line = none ↔ ¬ full3 line Status.PLAYER ∧ ¬ full3 line Status.ENEMY := by
  unfold lineWinner lineScan full3 BOARD_SIZE
  generalize line 0 = a
  generalize line 1 = b
  generalize line 2 = c
  cases a <;> cases b <;> cases c <;> simp [Status.toWINNER]

/-- The function `calc_result` returns the first winner found among the eight line
tests, and looks for a `BLANK` cell when there is none. -/
theorem Board.calc_result_eq (b : Board) :
    b.calc_result =
      match b.lineFns.findSome? lineWinner with
      | some w => w
      | none => if AI_minimax.isMovesLeft b then WINNER.NOT_FINISHED else WINNER.DRAW := by
  unfold Board.calc_result Board.lineFns idx AI_minimax.isMovesLeft
  simp only [List.findSome?]
  cases lineWinner (b.row 0) <;> cases lineWinner (b.row 1) <;> cases lineWinner (b.row 2) <;>
  cases lineWinner (b.col 0) <;> cases lineWinner (b.col 1) <;> cases lineWinner (b.col 2) <;>
  cases lineWinner b.diag <;> cases lineWinner b.anti <;> rfl

theorem Board.hasLine_iff (b : Board) (s : Status) :
    b.hasLine s ↔ ∃ f ∈ b.lineFns, full3 f s := by
  unfold Board.hasLine lineCells Board.lineFns full3 Board.row Board.col Board.diag Board.anti
  simp only [List.mem_cons, List.mem_singleton, exists_eq_or_imp, forall_eq_or_imp,
    List.not_mem_nil, or_false, exists_eq_left, forall_eq, IsEmpty.forall_iff, implies_true,
    and_true, exists_false]
  have h0 : (2 : Fin 3) - 0 = 2 := rfl
  have h1 : (2 : Fin 3) - 1 = 1 := rfl
  have h2 : (2 : Fin 3) - 2 = 0 := rfl
  rw [h0, h1, h2]

theorem Board.calc_result_player (b : Board) (h : b.calc_result = WINNER.PLAYER) :
    b.hasLine Status.PLAYER := by
  rw [Board.calc_result_eq] at h
  rw [Board.hasLine_iff]
  split at h
  · next w hw =>
    subst h
    obtain ⟨f, hf, hfw⟩ := List.exists_of_findSome?_eq_some hw
    exact ⟨f, hf, (lineWinner_player f).1 hfw⟩
  · split at h <;> simp at h

theorem Board.calc_result_enemy (b : Board) (h : b.calc_result = WINNER.ENEMY) :
    b.hasLine Status.ENEMY := by
  rw [Board.calc_result_eq] at h
  rw [Board.hasLine_iff]
  split at h
  · next w hw =>
    subst h
    obtain ⟨f, hf, hfw⟩ := List.exists_of_findSome?_eq_some hw
    exact ⟨f, hf, (lineWinner_enemy f).1 hfw⟩
  · split at h <;> simp at h

/-- When some line is complete, `calc_result` reports a winner. -/
theorem Board.calc_result_of_line (b : Board)
    (h : b.hasLine Status.PLAYER ∨ b.hasLine Status.ENEMY) :
    b.calc_result = WINNER.PLAYER ∨ b.calc_result = WINNER.ENEMY := by
  rw [Board.calc_result_eq]
  split
  · next w hw =>
    obtain ⟨f, _, hfw⟩ := List.exists_of_findSome?_eq_some hw
    exact lineWinner_some f w hfw
  · next hnone =>
    exfalso
    rw [List.findSome?_eq_none_iff] at hnone
    rw [Board.hasLine_iff, Board.hasLine_iff] at h
    rcases h with ⟨f, hf, hfull⟩ | ⟨f, hf, hfull⟩
    · exact ((lineWinner_none f).1 (hnone f hf)).1 hfull
    · exact ((lineWinner_none f).1 (hnone f hf)).2 hfull

/-- When no line is complete, `calc_result` tells an unfinished board from a draw
by looking for a `BLANK` cell. -/
theorem Board.calc_result_no_line (b : Board) (hP : ¬ b.hasLine Status.PLAYER)
    (hE : ¬ b.hasLine Status.ENEMY) :
    b.calc_result = if AI_minimax.isMovesLeft b then WINNER.NOT_FINISHED else WINNER.DRAW := by
  rw [Board.calc_result_eq]
  split
  · next w hw =>
    exfalso
    obtain ⟨f, hf, hfw⟩ := List.exists_of_findSome?_eq_some hw
    rcases lineWinner_some f w hfw with hwp | hwe
    · subst hwp
      exact hP ((Board.hasLine_iff b _).2 ⟨f, hf, (lineWinner_player f).1 hfw⟩)
    · subst hwe
      exact hE ((Board.hasLine_iff b _).2 ⟨f, hf, (lineWinner_enemy f).1 hfw⟩)
  · rfl

theorem AI_minimax.isMovesLeft_iff (b : Board) :
    AI_minimax.isMovesLeft b = true ↔ ∃ r c : Fin 3, b.status r c = Status.BLANK := by
  unfold AI_minimax.isMovesLeft
  rw [List.any_eq_true]
  constructor
  · rintro ⟨c, _, hc⟩
    exact ⟨c.1, c.2, by simpa using hc⟩
  · rintro ⟨r, c, h⟩
    exact ⟨(r, c), mem_cells _, by simpa using h⟩

/-- An unfinished board has a `BLANK` cell. -/
theorem Board.not_finished_movesLeft (b : Board) (h : b.calc_result = WINNER.NOT_FINISHED) :
    AI_minimax.isMovesLeft b = true := by
  rw [Board.calc_result_eq] at h
  split at h
  · next w hw =>
    obtain ⟨f, _, hfw⟩ := List.exists_of_findSome?_eq_some hw
    rcases lineWinner_some f w hfw with hwp | hwe
    · rw [hwp] at h
      simp at h
    · rw [hwe] at h
      simp at h
  · split at h
    · assumption
    · simp at h

/-- A drawn board has no `BLANK` cell. -/
theorem Board.draw_no_movesLeft (b : Board) (h : b.calc_result = WINNER.DRAW) :
    AI_minimax.isMovesLeft b = false := by
  rw [Board.calc_result_eq] at h
  split at h
  · next w hw =>
    obtain ⟨f, _, hfw⟩ := List.exists_of_findSome?_eq_some hw
    rcases lineWinner_some f w hfw with hwp | hwe
    · rw [hwp] at h
      simp at h
    · rw [hwe] at h
      simp at h
  · split at h
    · simp at h
    · next hm => simpa using hm

/-- Marking a `BLANK` cell of an unfinished board `PLAYER` cannot complete a line
of `ENEMY` marks. -/
theorem Board.calc_result_player_move (b : Board) (r c : Fin 3)
    (h : b.calc_result = WINNER.NOT_FINISHED) :
    (b.setStatus r c Status.PLAYER).calc_result ≠ WINNER.ENEMY := by
  intro he
  obtain ⟨l, hl, hall⟩ := Board.calc_result_enemy _ he
  have : b.hasLine Status.ENEMY := by
    refine ⟨l, hl, fun a ha => ?_⟩
    have := hall a ha
    rw [Board.status_setStatus] at this
    split at this
    · simp at this
    · exact this
  rcases Board.calc_result_of_line b (Or.inr this) with h1 | h1 <;> rw [h1] at h <;> simp at h

/-- Marking a `BLANK` cell of an unfinished board `ENEMY` cannot complete a line
of `PLAYER` marks. -/
theorem Board.calc_result_enemy_move (b : Board) (r c : Fin 3)
    (h : b.calc_result = WINNER.NOT_FINISHED) :
    (b.setStatus r c Status.ENEMY).calc_result ≠ WINNER.PLAYER := by
  intro he
  obtain ⟨l, hl, hall⟩ := Board.calc_result_player _ he
  have : b.hasLine Status.PLAYER := by
    refine ⟨l, hl, fun a ha => ?_⟩
    have := hall a ha
    rw [Board.status_setStatus] at this
    split at this
    · simp at this
    · exact this
  rcases Board.calc_result_of_line b (Or.inl this) with h1 | h1 <;> rw [h1] at h <;> simp at h

/-! ## Counting `BLANK` cells -/

theorem countP_update {α : Type} (l : List α) (p q : α → Bool) (c : α) (hnd : l.Nodup)
    (hc : c ∈ l) (hp : p c = true) (hq : q c = false) (hne : ∀ a, a ≠ c → q a = p a) :
    l.countP q + 1 = l.countP p := by
  induction l with
  | nil => simp at hc
  | cons a rest ih =>
    rw [List.nodup_cons] at hnd
    by_cases hac : a = c
    · subst hac
      have hrest : rest.countP q = rest.countP p := by
        apply List.countP_congr
        intro x hx
        have hxa : x ≠ a := fun h => hnd.1 (h ▸ hx)
        rw [hne x hxa]
      rw [List.countP_cons_of_neg _ _ (by simp [hq]), List.countP_cons_of_pos _ _ hp, hrest]
    · have hc1 : c ∈ rest := by
        rw [List.mem_cons] at hc
        rcases hc with h | h
        · exact absurd h.symm hac
        · exact h
      have := ih hnd.2 hc1
      rw [List.countP_cons, List.countP_cons, hne a hac]
      omega

theorem cells_nodup : cells.Nodup := by
  decide

theorem Board.blanks_setStatus (b : Board) (y x : Fin 3) (s : Status)
    (hb : b.status y x = Status.BLANK) (hs : s ≠ Status.BLANK) :
    (b.setStatus y x s).blanks + 1 = b.blanks := by
  unfold Board.blanks
  apply countP_update cells _ _ (y, x) cells_nodup (mem_cells _)
  · simp [hb]
  · simp [Board.status_setStatus, hs]
  · intro a ha
    have : ¬ (a.1 = y ∧ a.2 = x) := fun h => ha (Prod.ext h.1 h.2)
    simp only [Board.status_setStatus, if_neg this]

theorem Board.blanks_le (b : Board) : b.blanks ≤ 9 := by
  unfold Board.blanks
  exact List.countP_le_length _

/-! ## The search leaves the board as it found it -/

/-- The body of the maximising or minimising loop of the search on immutable
boards. -/
theorem forCells_pure (b : Board) (s : Status) (pick : Int → Int → Int)
    (sub : Board → Option (Int × Board)) (val : Board → Int)
    (cs : List (Fin 3 × Fin 3))
    (hsub : ∀ c ∈ cs, b.status c.1 c.2 = Status.BLANK →
      sub (b.setStatus c.1 c.2 s) = some (val (b.setStatus c.1 c.2 s), b.setStatus c.1 c.2 s))
    (best : Int) :
    forCells (fun (st : Int × Board) c =>
        if st.2.status c.1 c.2 = Status.BLANK then
          match sub (st.2.setStatus c.1 c.2 s) with
          | none => none
          | some r => some (pick st.1 r.1, r.2.setStatus c.1 c.2 Status.BLANK)
        else some st) cs (best, b)
      = some (cs.foldl (fun best c =>
          if b.status c.1 c.2 = Status.BLANK then pick best (val (b.setStatus c.1 c.2 s))
          else best) best, b) := by
  induction cs generalizing best with
  | nil => rfl
  | cons d rest ih =>
    have hrest : ∀ c ∈ rest, b.status c.1 c.2 = Status.BLANK →
        sub (b.setStatus c.1 c.2 s) = some (val (b.setStatus c.1 c.2 s), b.setStatus c.1 c.2 s) :=
      fun c hc => hsub c (List.mem_cons_of_mem _ hc)
    unfold forCells
    simp only [List.foldl_cons]
    by_cases hd : b.status d.1 d.2 = Status.BLANK
    · simp only [hd, if_true, hsub d (List.mem_cons_self _ _) hd,
        Board.setStatus_revert b d.1 d.2 s hd]
      exact ih hrest _
    · simp only [hd, if_false]
      exact ih hrest _

theorem wrapInt_of_range (z : Int) (h1 : -2147483648 ≤ z) (h2 : z ≤ 2147483647) :
    wrapInt z = z := by
  unfold wrapInt
  omega

/-- With enough fuel, and at a depth from which no 32-bit operation of the search
overflows, `minimax` returns the score of the search on immutable boards and hands
the board back unchanged. -/
theorem AI_minimax.minimaxF_eq (n : Nat) (b : Board) (depth : Int) (isMax : Bool)
    (h : b.blanks < n) (hlo : -2147483637 ≤ depth)
    (hhi : depth + (b.blanks : Int) ≤ 2147483647) :
    AI_minimax.minimaxF n b depth isMax = some (scoreF n b depth isMax, b) := by
  induction n generalizing b depth isMax with
  | zero => omega
  | succ n ih =>
    have hnat : (0 : Int) ≤ (b.blanks : Int) := Int.ofNat_nonneg _
    unfold AI_minimax.minimaxF scoreF
    simp only
    split
    · next h10 => rw [wrapInt_of_range _ (by omega) (by omega)]
    · split
      · next hm10 => rw [wrapInt_of_range _ (by omega) (by omega)]
      · split
        · rfl
        · have hsub : ∀ (s : Status), s ≠ Status.BLANK → ∀ c ∈ cells,
              b.status c.1 c.2 = Status.BLANK →
              AI_minimax.minimaxF n (b.setStatus c.1 c.2 s) (wrapInt (depth + 1)) (!isMax)
                = some (scoreF n (b.setStatus c.1 c.2 s) (depth + 1) (!isMax),
                    b.setStatus c.1 c.2 s) := by
            intro s hs c _ hc
            have := Board.blanks_setStatus b c.1 c.2 s hc hs
            rw [wrapInt_of_range _ (by omega) (by omega)]
            exact ih _ _ _ (by omega) (by omega) (by omega)
          split
          · exact forCells_pure b Status.ENEMY max
              (fun b1 => AI_minimax.minimaxF n b1 (wrapInt (depth + 1)) (!isMax))
              (fun b1 => scoreF n b1 (depth + 1) (!isMax)) cells
              (hsub Status.ENEMY (by decide)) (-1000)
          · exact forCells_pure b Status.PLAYER min
              (fun b1 => AI_minimax.minimaxF n b1 (wrapInt (depth + 1)) (!isMax))
              (fun b1 => scoreF n b1 (depth + 1) (!isMax)) cells
              (hsub Status.PLAYER (by decide)) 1000

/-- The search never runs out of fuel on a 3×3 board, and at a depth from which no
32-bit operation overflows it returns the score of the search on immutable
boards. -/
theorem AI_minimax.minimax_eq (b : Board) (depth : Int) (isMax : Bool)
    (hlo : -2147483637 ≤ depth) (hhi : depth + (b.blanks : Int) ≤ 2147483647) :
    AI_minimax.minimax b depth isMax = some (scoreF searchFuel b depth isMax, b) := by
  unfold AI_minimax.minimax
  apply AI_minimax.minimaxF_eq _ _ _ _ _ hlo hhi
  have := Board.blanks_le b
  unfold searchFuel BOARD_SIZE
  omega

/-- A search started at depth 0, as every search started by `think` is. -/
theorem AI_minimax.minimax_zero (b : Board) (isMax : Bool) :
    AI_minimax.minimax b 0 isMax = some (scoreF searchFuel b 0 isMax, b) := by
  have := Board.blanks_le b
  exact AI_minimax.minimax_eq b 0 isMax (by omega) (by omega)

/-! ## Running maximum and minimum over the `BLANK` cells -/

theorem le_foldl_max {α : Type} (P : α → Prop) [DecidablePred P] (f : α → Int)
    (cs : List α) (init thr : Int) :
    thr ≤ cs.foldl (fun best c => if P c then max best (f c) else best) init ↔
      thr ≤ init ∨ ∃ c ∈ cs, P c ∧ thr ≤ f c := by
  induction cs generalizing init with
  | nil => simp
  | cons d rest ih =>
    rw [List.foldl_cons, ih]
    by_cases hd : P d
    · simp only [hd, if_true, le_max_iff, List.mem_cons, exists_eq_or_imp, true_and]
      tauto
    · simp only [hd, if_false, List.mem_cons, exists_eq_or_imp, false_and, false_or]

theorem le_foldl_min {α : Type} (P : α → Prop) [DecidablePred P] (f : α → Int)
    (cs : List α) (init thr : Int) :
    thr ≤ cs.foldl (fun best c => if P c then min best (f c) else best) init ↔
      thr ≤ init ∧ ∀ c ∈ cs, P c → thr ≤ f c := by
  induction cs generalizing init with
  | nil => simp
  | cons d rest ih =>
    rw [List.foldl_cons, ih]
    by_cases hd : P d
    · simp only [hd, if_true, le_min_iff, List.mem_cons, forall_eq_or_imp, true_implies]
      tauto
    · simp only [hd, if_false, List.mem_cons, forall_eq_or_imp, false_implies, true_and]

/-! ## The score, case by case -/

theorem AI_minimax.evaluate_player (b : Board) (h : b.calc_result = WINNER.PLAYER) :
    AI_minimax.evaluate b = -10 := by
  simp [AI_minimax.evaluate, h]

theorem AI_minimax.evaluate_enemy (b : Board) (h : b.calc_result = WINNER.ENEMY) :
    AI_minimax.evaluate b = 10 := by
  simp [AI_minimax.evaluate, h]

theorem AI_minimax.evaluate_other (b : Board) (hp : b.calc_result ≠ WINNER.PLAYER)
    (he : b.calc_result ≠ WINNER.ENEMY) : AI_minimax.evaluate b = 0 := by
  simp [AI_minimax.evaluate, hp, he]

theorem scoreF_enemy (n : Nat) (b : Board) (d : Int) (m : Bool)
    (h : b.calc_result = WINNER.ENEMY) : scoreF (n + 1) b d m = 10 - d := by
  unfold scoreF
  simp [AI_minimax.evaluate_enemy b h]

theorem scoreF_player (n : Nat) (b : Board) (d : Int) (m : Bool)
    (h : b.calc_result = WINNER.PLAYER) : scoreF (n + 1) b d m = -10 + d := by
  unfold scoreF
  simp [AI_minimax.evaluate_player b h]

theorem scoreF_draw (n : Nat) (b : Board) (d : Int) (m : Bool)
    (h : b.calc_result = WINNER.DRAW) : scoreF (n + 1) b d m = 0 := by
  unfold scoreF
  simp [AI_minimax.evaluate_other b (by simp [h]) (by simp [h]), Board.draw_no_movesLeft b h]

theorem scoreF_max (n : Nat) (b : Board) (d : Int)
    (h : b.calc_result = WINNER.NOT_FINISHED) :
    scoreF (n + 1) b d true =
      cells.foldl (fun best c =>
        if b.status c.1 c.2 = Status.BLANK then
          max best (scoreF n (b.setStatus c.1 c.2 Status.ENEMY) (d + 1) false)
        else best) (-1000) := by
  rw [scoreF]
  simp [AI_minimax.evaluate_other b (by simp [h]) (by simp [h]),
    Board.not_finished_movesLeft b h]

theorem scoreF_min (n : Nat) (b : Board) (d : Int)
    (h : b.calc_result = WINNER.NOT_FINISHED) :
    scoreF (n + 1) b d false =
      cells.foldl (fun best c =>
        if b.status c.1 c.2 = Status.BLANK then
          min best (scoreF n (b.setStatus c.1 c.2 Status.PLAYER) (d + 1) true)
        else best) 1000 := by
  rw [scoreF]
  simp [AI_minimax.evaluate_other b (by simp [h]) (by simp [h]),
    Board.not_finished_movesLeft b h]

/-- Scores stay between `-10` and `10` as long as the depth cannot exceed 9. -/
theorem scoreF_bounds (n : Nat) (b : Board) (d : Int) (m : Bool) (hd : 0 ≤ d)
    (hdb : d + (b.blanks : Int) ≤ 9) (hn : b.blanks < n) :
    -10 ≤ scoreF n b d m ∧ scoreF n b d m ≤ 10 := by
  induction n generalizing b d m with
  | zero => omega
  | succ n ih =>
    have hchild : ∀ (s : Status), s ≠ Status.BLANK → ∀ c : Fin 3 × Fin 3,
        b.status c.1 c.2 = Status.BLANK → ∀ m1 : Bool,
        -10 ≤ scoreF n (b.setStatus c.1 c.2 s) (d + 1) m1 ∧
          scoreF n (b.setStatus c.1 c.2 s) (d + 1) m1 ≤ 10 := by
      intro s hs c hc m1
      have := Board.blanks_setStatus b c.1 c.2 s hc hs
      exact ih _ _ _ (by omega) (by omega) (by omega)
    have hnat : (0 : Int) ≤ (b.blanks : Int) := Int.ofNat_nonneg _
    cases hres : b.calc_result with
    | ENEMY => rw [scoreF_enemy n b d m hres]; omega
    | PLAYER => rw [scoreF_player n b d m hres]; omega
    | DRAW => rw [scoreF_draw n b d m hres]; omega
    | NOT_FINISHED =>
      obtain ⟨r, c, hrc⟩ := (AI_minimax.isMovesLeft_iff b).1 (Board.not_finished_movesLeft b hres)
      cases m with
      | true =>
        rw [scoreF_max n b d hres]
        constructor
        · rw [le_foldl_max (fun c : Fin 3 × Fin 3 => b.status c.1 c.2 = Status.BLANK)]
          exact Or.inr ⟨(r, c), mem_cells _, hrc, (hchild Status.ENEMY (by decide) (r, c) hrc false).1⟩
        · rw [← Int.lt_add_one_iff, ← not_le,
            le_foldl_max (fun c : Fin 3 × Fin 3 => b.status c.1 c.2 = Status.BLANK)]
          rintro (h | ⟨c1, _, hc1, hle⟩)
          · omega
          · have := (hchild Status.ENEMY (by decide) c1 hc1 false).2
            omega
      | false =>
        rw [scoreF_min n b d hres]
        constructor
        · rw [le_foldl_min (fun c : Fin 3 × Fin 3 => b.status c.1 c.2 = Status.BLANK)]
          exact ⟨by omega, fun c1 _ hc1 => (hchild Status.PLAYER (by decide) c1 hc1 true).1⟩
        · rw [← Int.lt_add_one_iff, ← not_le,
            le_foldl_min (fun c : Fin 3 × Fin 3 => b.status c.1 c.2 = Status.BLANK)]
          rintro ⟨_, hall⟩
          have h1 := hall (r, c) (mem_cells _) hrc
          have h2 := (hchild Status.PLAYER (by decide) (r, c) hrc true).2
          omega

/-! ## `AI_minimax::think` -/

theorem AI_minimax.thinkBody_blank (b : Board) (v r c : Int) (d : Fin 3 × Fin 3)
    (hd : b.status d.1 d.2 = Status.BLANK) :
    AI_minimax.thinkBody ⟨b, v, r, c⟩ d =
      some (if trialScore b d > v then ⟨b, trialScore b d, (d.1.val : Int), (d.2.val : Int)⟩
        else ⟨b, v, r, c⟩) := by
  unfold AI_minimax.thinkBody
  simp only [hd, if_true, AI_minimax.minimax_zero, Board.setStatus_revert b d.1 d.2 _ hd]
  unfold trialScore
  split <;> rfl

theorem AI_minimax.thinkBody_taken (st : ThinkState) (d : Fin 3 × Fin 3)
    (hd : st.b.status d.1 d.2 ≠ Status.BLANK) :
    AI_minimax.thinkBody st d = some st := by
  unfold AI_minimax.thinkBody
  rw [if_neg hd]

/-- The loops of `think` compute `bestFold` and leave the board as it was. -/
theorem AI_minimax.forCells_thinkBody (b : Board) (cs : List (Fin 3 × Fin 3))
    (v r c : Int) :
    forCells AI_minimax.thinkBody cs ⟨b, v, r, c⟩ =
      some ⟨b, (bestFold b cs (v, r, c)).1, (bestFold b cs (v, r, c)).2.1,
        (bestFold b cs (v, r, c)).2.2⟩ := by
  induction cs generalizing v r c with
  | nil => rfl
  | cons d rest ih =>
    unfold forCells bestFold
    rw [List.foldl_cons]
    by_cases hd : b.status d.1 d.2 = Status.BLANK
    · rw [AI_minimax.thinkBody_blank b v r c d hd]
      simp only [hd, if_true]
      by_cases hgt : trialScore b d > v
      · simp only [hgt, if_true]
        exact ih _ _ _
      · simp only [hgt, if_false]
        exact ih _ _ _
    · rw [AI_minimax.thinkBody_taken _ d hd]
      simp only [hd, if_false]
      exact ih _ _ _

/-- What the loops of `think` leave in `(bestVal, bestMoveRow, bestMoveCol)`: either
the initial triple, when no `BLANK` cell scores above `bestVal`, or the first
`BLANK` cell among those with the highest score. -/
theorem bestFold_spec (b : Board) (cs : List (Fin 3 × Fin 3)) (v r c : Int) :
    (bestFold b cs (v, r, c) = (v, r, c) ∧
      ∀ a ∈ cs, b.status a.1 a.2 = Status.BLANK → trialScore b a ≤ v) ∨
    (∃ l1 a l2, cs = l1 ++ a :: l2 ∧ b.status a.1 a.2 = Status.BLANK ∧ v < trialScore b a ∧
      (∀ a1 ∈ l1, b.status a1.1 a1.2 = Status.BLANK → trialScore b a1 < trialScore b a) ∧
      (∀ a1 ∈ l2, b.status a1.1 a1.2 = Status.BLANK → trialScore b a1 ≤ trialScore b a) ∧
      bestFold b cs (v, r, c) = (trialScore b a, (a.1.val : Int), (a.2.val : Int))) := by
  induction cs generalizing v r c with
  | nil =>
    left
    exact ⟨rfl, by simp⟩
  | cons d rest ih =>
    have hstep : bestFold b (d :: rest) (v, r, c) =
        bestFold b rest (if b.status d.1 d.2 = Status.BLANK then
          if trialScore b d > v then (trialScore b d, (d.1.val : Int), (d.2.val : Int))
          else (v, r, c) else (v, r, c)) := by
      unfold bestFold
      rw [List.foldl_cons]
    by_cases hd : b.status d.1 d.2 = Status.BLANK ∧ trialScore b d > v
    · rw [hstep, if_pos hd.1, if_pos hd.2]
      right
      rcases ih (trialScore b d) (d.1.val : Int) (d.2.val : Int) with ⟨heq, hall⟩ |
        ⟨l1, a, l2, hsplit, ha, hlt, h1, h2, heq⟩
      · exact ⟨[], d, rest, rfl, hd.1, hd.2, by simp, hall, heq⟩
      · refine ⟨d :: l1, a, l2, by rw [hsplit]; rfl, ha, by omega, ?_, h2, heq⟩
        intro a1 ha1 hb1
        rw [List.mem_cons] at ha1
        rcases ha1 with rfl | ha1
        · exact hlt
        · exact h1 a1 ha1 hb1
    · have hsame : (if b.status d.1 d.2 = Status.BLANK then
          if trialScore b d > v then (trialScore b d, (d.1.val : Int), (d.2.val : Int))
          else (v, r, c) else (v, r, c)) = (v, r, c) := by
        by_cases hb : b.status d.1 d.2 = Status.BLANK
        · rw [if_pos hb, if_neg (fun h => hd ⟨hb, h⟩)]
        · rw [if_neg hb]
      have hdle : b.status d.1 d.2 = Status.BLANK → trialScore b d ≤ v := by
        intro hb
        by_contra hgt
        exact hd ⟨hb, by omega⟩
      rw [hstep, hsame]
      rcases ih v r c with ⟨heq, hall⟩ | ⟨l1, a, l2, hsplit, ha, hlt, h1, h2, heq⟩
      · left
        refine ⟨heq, ?_⟩
        intro a ha hb
        rw [List.mem_cons] at ha
        rcases ha with rfl | ha
        · exact hdle hb
        · exact hall a ha hb
      · right
        refine ⟨d :: l1, a, l2, by rw [hsplit]; rfl, ha, hlt, ?_, h2, heq⟩
        intro a1 ha1 hb1
        rw [List.mem_cons] at ha1
        rcases ha1 with rfl | ha1
        · have := hdle hb1
          omega
        · exact h1 a1 ha1 hb1

/-- Every trial score of `think` lies between `-10` and `10`. -/
theorem trialScore_bounds (b : Board) (a : Fin 3 × Fin 3)
    (ha : b.status a.1 a.2 = Status.BLANK) :
    -10 ≤ trialScore b a ∧ trialScore b a ≤ 10 := by
  unfold trialScore
  have h1 := Board.blanks_setStatus b a.1 a.2 Status.ENEMY ha (by decide)
  have h2 := Board.blanks_le b
  apply scoreF_bounds
  · omega
  · omega
  · unfold searchFuel BOARD_SIZE
    omega

/-- On a board with a `BLANK` cell, `think` returns `true` after marking the first
`BLANK` cell among those whose trial score is highest; nothing else changes. -/
theorem AI_minimax.think_blank (b : Board) (h : ∃ r c : Fin 3, b.status r c = Status.BLANK) :
    ∃ a : Fin 3 × Fin 3, b.status a.1 a.2 = Status.BLANK ∧
      (∀ a1, rowMajorBefore a1 a → b.status a1.1 a1.2 = Status.BLANK →
        trialScore b a1 < trialScore b a) ∧
      (∀ a1, b.status a1.1 a1.2 = Status.BLANK → trialScore b a1 ≤ trialScore b a) ∧
      AI_minimax.think b = Run.ok (true, b.setStatus a.1 a.2 Status.ENEMY) := by
  obtain ⟨r0, c0, h0⟩ := h
  rcases bestFold_spec b cells (-1000) (-1) (-1) with ⟨_, hall⟩ |
    ⟨l1, a, l2, hsplit, ha, _, h1, h2, heq⟩
  · exfalso
    have := hall (r0, c0) (mem_cells _) h0
    have := (trialScore_bounds b (r0, c0) h0).1
    omega
  · refine ⟨a, ha, ?_, ?_, ?_⟩
    · intro a1 hbefore hb1
      exact h1 a1 ((cells_split_before l1 l2 a hsplit a1).2 hbefore) hb1
    · intro a1 hb1
      have hm := mem_cells a1
      rw [hsplit, List.mem_append, List.mem_cons] at hm
      rcases hm with hm | rfl | hm
      · exact le_of_lt (h1 a1 hm hb1)
      · exact le_refl _
      · exact h2 a1 hm hb1
    · unfold AI_minimax.think AI_minimax.thinkScan
      rw [AI_minimax.forCells_thinkBody, heq]
      simp only [cellAt?_val]

/-- On a board without a `BLANK` cell, `think` leaves its loops with
`bestMoveRow = bestMoveCol = -1` and writes outside the array. -/
theorem AI_minimax.think_full (b : Board) (h : ∀ r c : Fin 3, b.status r c ≠ Status.BLANK) :
    AI_minimax.think b = Run.outOfBounds := by
  rcases bestFold_spec b cells (-1000) (-1) (-1) with ⟨heq, _⟩ |
    ⟨l1, a, l2, _, ha, _, _, _, _⟩
  · unfold AI_minimax.think AI_minimax.thinkScan
    rw [AI_minimax.forCells_thinkBody, heq]
    rfl
  · exact absurd ha (h a.1 a.2)

/-! ## What Second can secure, and the sign of the score -/

theorem Secures.over_iff (ok : WINNER → Prop) (t : Bool) (b : Board)
    (h : b.calc_result ≠ WINNER.NOT_FINISHED) : Secures ok t b ↔ ok b.calc_result := by
  constructor
  · intro hs
    cases hs with
    | over _ _ _ hok => exact hok
    | second _ _ _ hn => exact absurd hn h
    | first _ hn => exact absurd hn h
  · exact Secures.over t b h

theorem Secures.second_iff (ok : WINNER → Prop) (b : Board)
    (h : b.calc_result = WINNER.NOT_FINISHED) :
    Secures ok true b ↔
      ∃ c : Fin 3 × Fin 3, b.status c.1 c.2 = Status.BLANK ∧
        Secures ok false (b.setStatus c.1 c.2 Status.ENEMY) := by
  constructor
  · intro hs
    cases hs with
    | over _ _ hn => exact absurd h hn
    | second _ y x _ hb hnext => exact ⟨(y, x), hb, hnext⟩
  · rintro ⟨c, hb, hnext⟩
    exact Secures.second b c.1 c.2 h hb hnext

theorem Secures.first_iff (ok : WINNER → Prop) (b : Board)
    (h : b.calc_result = WINNER.NOT_FINISHED) :
    Secures ok false b ↔
      ∀ c : Fin 3 × Fin 3, b.status c.1 c.2 = Status.BLANK →
        Secures ok true (b.setStatus c.1 c.2 Status.PLAYER) := by
  constructor
  · intro hs c hb
    cases hs with
    | over _ _ hn => exact absurd h hn
    | first _ _ hall => exact hall _ _ _ (Board.put_blank b c.1 c.2 hb)
  · intro hall
    apply Secures.first b h
    intro x y b1 hput
    obtain ⟨r, c, _, _, hb, rfl⟩ := Board.put_true b b1 x y hput
    exact hall (r, c) hb

/-- The outcomes that a score of at least `thr` stands for: a win of Second, and
also a draw when `thr` is not positive. -/
theorem scoreF_secures (thr : Int) (h0 : 0 ≤ thr) (h1 : thr ≤ 1) (n : Nat) (b : Board)
    (d : Int) (m : Bool) (hd : 0 ≤ d) (hdb : d + (b.blanks : Int) ≤ 9) (hn : b.blanks < n) :
    thr ≤ scoreF n b d m ↔
      Secures (fun w => w = WINNER.ENEMY ∨ (w = WINNER.DRAW ∧ thr ≤ 0)) m b := by
  induction n generalizing b d m with
  | zero => omega
  | succ n ih =>
    have hchild : ∀ (s : Status), s ≠ Status.BLANK → ∀ c : Fin 3 × Fin 3,
        b.status c.1 c.2 = Status.BLANK → ∀ m1 : Bool,
        (thr ≤ scoreF n (b.setStatus c.1 c.2 s) (d + 1) m1 ↔
          Secures (fun w => w = WINNER.ENEMY ∨ (w = WINNER.DRAW ∧ thr ≤ 0)) m1
            (b.setStatus c.1 c.2 s)) := by
      intro s hs c hc m1
      have := Board.blanks_setStatus b c.1 c.2 s hc hs
      exact ih _ _ _ (by omega) (by omega) (by omega)
    have hnat : (0 : Int) ≤ (b.blanks : Int) := Int.ofNat_nonneg _
    cases hres : b.calc_result with
    | ENEMY =>
      rw [scoreF_enemy n b d m hres, Secures.over_iff _ _ _ (by simp [hres]), hres]
      simp only [true_or, iff_true]
      omega
    | PLAYER =>
      rw [scoreF_player n b d m hres, Secures.over_iff _ _ _ (by simp [hres]), hres]
      simp only [false_and, or_self, iff_false, not_le, reduceCtorEq]
      omega
    | DRAW =>
      rw [scoreF_draw n b d m hres, Secures.over_iff _ _ _ (by simp [hres]), hres]
      simp
    | NOT_FINISHED =>
      cases m with
      | true =>
        rw [scoreF_max n b d hres, Secures.second_iff _ b hres,
          le_foldl_max (fun c : Fin 3 × Fin 3 => b.status c.1 c.2 = Status.BLANK)]
        constructor
        · rintro (h | ⟨c, _, hc, hle⟩)
          · omega
          · exact ⟨c, hc, (hchild Status.ENEMY (by decide) c hc false).1 hle⟩
        · rintro ⟨c, hc, hs⟩
          exact Or.inr ⟨c, mem_cells _, hc, (hchild Status.ENEMY (by decide) c hc false).2 hs⟩
      | false =>
        rw [scoreF_min n b d hres, Secures.first_iff _ b hres,
          le_foldl_min (fun c : Fin 3 × Fin 3 => b.status c.1 c.2 = Status.BLANK)]
        constructor
        · rintro ⟨_, hall⟩ c hc
          exact (hchild Status.PLAYER (by decide) c hc true).1 (hall c (mem_cells _) hc)
        · intro hall
          exact ⟨by omega, fun c _ hc =>
            (hchild Status.PLAYER (by decide) c hc true).2 (hall c hc)⟩

theorem Secures.mono (ok ok1 : WINNER → Prop) (hok : ∀ w, ok w → ok1 w) (t : Bool) (b : Board)
    (h : Secures ok t b) : Secures ok1 t b := by
  induction h with
  | over t b hn hw => exact Secures.over t b hn (hok _ hw)
  | second b y x hn hb _ ih => exact Secures.second b y x hn hb ih
  | first b hn _ ih => exact Secures.first b hn ih

/-- A trial score is positive exactly when the trial move leaves a position in
which Second can force a win. -/
theorem trialScore_pos_iff (b : Board) (a : Fin 3 × Fin 3)
    (ha : b.status a.1 a.2 = Status.BLANK) :
    0 < trialScore b a ↔ ForcedWin false (b.setStatus a.1 a.2 Status.ENEMY) := by
  have h1 := Board.blanks_setStatus b a.1 a.2 Status.ENEMY ha (by decide)
  have h2 := Board.blanks_le b
  have := scoreF_secures 1 (by omega) (by omega) searchFuel
    (b.setStatus a.1 a.2 Status.ENEMY) 0 false (by omega) (by omega)
    (by unfold searchFuel BOARD_SIZE; omega)
  unfold trialScore ForcedWin
  rw [← Int.add_one_le_iff, zero_add, this]
  constructor
  · exact Secures.mono _ _ (fun w hw => by
      rcases hw with hw | ⟨_, hw⟩
      · exact hw
      · omega) _ _
  · exact Secures.mono _ _ (fun w hw => Or.inl hw) _ _

/-- A trial score is non-negative exactly when the trial move leaves a position in
which Second can avoid defeat. -/
theorem trialScore_nonneg_iff (b : Board) (a : Fin 3 × Fin 3)
    (ha : b.status a.1 a.2 = Status.BLANK) :
    0 ≤ trialScore b a ↔ Holds false (b.setStatus a.1 a.2 Status.ENEMY) := by
  have h1 := Board.blanks_setStatus b a.1 a.2 Status.ENEMY ha (by decide)
  have h2 := Board.blanks_le b
  have := scoreF_secures 0 (by omega) (by omega) searchFuel
    (b.setStatus a.1 a.2 Status.ENEMY) 0 false (by omega) (by omega)
    (by unfold searchFuel BOARD_SIZE; omega)
  unfold trialScore Holds
  rw [this]
  constructor
  · exact Secures.mono _ _ (fun w hw => by
      rcases hw with hw | ⟨hw, _⟩
      · exact Or.inl hw
      · exact Or.inr hw) _ _
  · exact Secures.mono _ _ (fun w hw => by
      rcases hw with hw | hw
      · exact Or.inl hw
      · exact Or.inr ⟨hw, le_refl _⟩) _ _

/-! ## The decision procedure agrees with `Secures` -/

theorem lineWinner_fast (f : Fin 3 → Status) : lineWinner f = fastLine (f 0) (f 1) (f 2) := by
  unfold lineWinner lineScan BOARD_SIZE
  generalize f 0 = a
  generalize f 1 = b
  generalize f 2 = c
  cases a <;> cases b <;> cases c <;> simp [fastLine, Status.toWINNER]

theorem Status.isBlank_iff (s : Status) : s.isBlank = true ↔ s = Status.BLANK := by
  cases s <;> simp [Status.isBlank]

theorem Status.isBlank_eq (s : Status) : s.isBlank = decide (s = Status.BLANK) := by
  cases s <;> rfl

theorem Board.fastResult_eq (b : Board) : b.fastResult = b.calc_result := by
  rw [Board.calc_result_eq]
  obtain ⟨⟨⟨⟨a0⟩, ⟨a1⟩, ⟨a2⟩⟩, ⟨⟨a3⟩, ⟨a4⟩, ⟨a5⟩⟩, ⟨⟨a6⟩, ⟨a7⟩, ⟨a8⟩⟩⟩⟩ := b
  have h0 : (2 : Fin 3) - 0 = 2 := rfl
  have h1 : (2 : Fin 3) - 1 = 1 := rfl
  have h2 : (2 : Fin 3) - 2 = 0 := rfl
  simp only [Board.lineFns, List.findSome?, lineWinner_fast, AI_minimax.isMovesLeft, cells,
    List.any, ← Status.isBlank_eq, Board.row, Board.col, Board.diag, Board.anti, Board.status,
    Board.mass, Arr3.get, Mass.getStatus, h0, h1, h2, Board.fastResult, Bool.or_false,
    Bool.or_assoc]
  cases fastLine a0 a1 a2 <;> cases fastLine a3 a4 a5 <;> cases fastLine a6 a7 a8 <;>
  cases fastLine a0 a3 a6 <;> cases fastLine a1 a4 a7 <;> cases fastLine a2 a5 a8 <;>
  cases fastLine a0 a4 a8 <;> cases fastLine a6 a4 a2 <;> rfl

theorem Status.force_spec {α : Type} (s : Status) (k : Status → α) : s.force k = k s := by
  cases s <;> rfl

theorem Board.force_eq {α : Type} (b : Board) (k : Board → α) : b.force k = k b := by
  obtain ⟨⟨⟨⟨a0⟩, ⟨a1⟩, ⟨a2⟩⟩, ⟨⟨a3⟩, ⟨a4⟩, ⟨a5⟩⟩, ⟨⟨a6⟩, ⟨a7⟩, ⟨a8⟩⟩⟩⟩ := b
  simp only [Board.force, Status.force_spec]

theorem mem_moveOrder (c : Fin 3 × Fin 3) : c ∈ moveOrder := by
  revert c
  decide

theorem securesB_iff (ok : WINNER → Bool) (n : Nat) (t : Bool) (b : Board)
    (hn : b.blanks < n) :
    securesB ok n t b = true ↔ Secures (fun w => ok w = true) t b := by
  induction n generalizing t b with
  | zero => omega
  | succ n ih =>
    have hchild : ∀ (s : Status), s ≠ Status.BLANK → ∀ c : Fin 3 × Fin 3,
        b.status c.1 c.2 = Status.BLANK → ∀ t1 : Bool,
        (securesB ok n t1 (b.setStatus c.1 c.2 s) = true ↔
          Secures (fun w => ok w = true) t1 (b.setStatus c.1 c.2 s)) := by
      intro s hs c hc t1
      have := Board.blanks_setStatus b c.1 c.2 s hc hs
      exact ih _ _ (by omega)
    unfold securesB
    rw [Board.force_eq, Board.fastResult_eq]
    cases hres : b.calc_result with
    | ENEMY => rw [Secures.over_iff _ _ _ (by simp [hres]), hres]
    | PLAYER => rw [Secures.over_iff _ _ _ (by simp [hres]), hres]
    | DRAW => rw [Secures.over_iff _ _ _ (by simp [hres]), hres]
    | NOT_FINISHED =>
      cases t with
      | true =>
        rw [Secures.second_iff _ b hres]
        simp only [if_true, List.any_eq_true, Bool.and_eq_true, Status.isBlank_iff]
        constructor
        · rintro ⟨c, _, hc, hs⟩
          exact ⟨c, hc, (hchild Status.ENEMY (by decide) c hc false).1 hs⟩
        · rintro ⟨c, hc, hs⟩
          exact ⟨c, mem_moveOrder c, hc, (hchild Status.ENEMY (by decide) c hc false).2 hs⟩
      | false =>
        rw [Secures.first_iff _ b hres]
        simp only [Bool.false_eq_true, if_false, List.all_eq_true, Bool.or_eq_true,
          Bool.not_eq_true', ← Bool.not_eq_true, Status.isBlank_iff]
        constructor
        · intro hall c hc
          rcases hall c (mem_cells c) with h | h
          · exact absurd hc h
          · exact (hchild Status.PLAYER (by decide) c hc true).1 h
        · intro hall c _
          by_cases hc : b.status c.1 c.2 = Status.BLANK
          · exact Or.inr ((hchild Status.PLAYER (by decide) c hc true).2 (hall c hc))
          · exact Or.inl hc

theorem holds_iff_securesB (t : Bool) (b : Board) :
    Holds t b ↔ securesB notLost searchFuel t b = true := by
  have hb := Board.blanks_le b
  rw [securesB_iff notLost searchFuel t b (by unfold searchFuel BOARD_SIZE; omega)]
  unfold Holds
  constructor
  · exact Secures.mono _ _ (fun w hw => by rcases hw with rfl | rfl <;> rfl) _ _
  · exact Secures.mono _ _ (fun w hw => by cases w <;> simp [notLost] at hw ⊢) _ _

theorem forcedWin_iff_securesB (t : Bool) (b : Board) :
    ForcedWin t b ↔ securesB won searchFuel t b = true := by
  have hb := Board.blanks_le b
  rw [securesB_iff won searchFuel t b (by unfold searchFuel BOARD_SIZE; omega)]
  unfold ForcedWin
  constructor
  · exact Secures.mono _ _ (fun w hw => by rcases hw with rfl; rfl) _ _
  · exact Secures.mono _ _ (fun w hw => by cases w <;> simp [won] at hw ⊢) _ _

/-- Second can avoid defeat from the empty board, whatever First plays. -/
theorem holds_empty : Holds false Board.empty := by
  rw [holds_iff_securesB]
  decide!

/-! ## Play against `AI_minimax::think` -/

theorem Secures.result (ok : WINNER → Prop) (t : Bool) (b : Board) (h : Secures ok t b) :
    b.calc_result = WINNER.NOT_FINISHED ∨ ok b.calc_result := by
  cases h with
  | over _ _ _ hok => exact Or.inr hok
  | second _ _ _ hn => exact Or.inl hn
  | first _ hn => exact Or.inl hn

/-- If Second can force a win, the move of `think` keeps the forced win. -/
theorem AI_minimax.think_keeps_win (b : Board) (hn : b.calc_result = WINNER.NOT_FINISHED)
    (hw : ForcedWin true b) :
    ∃ a : Fin 3 × Fin 3, b.status a.1 a.2 = Status.BLANK ∧
      AI_minimax.think b = Run.ok (true, b.setStatus a.1 a.2 Status.ENEMY) ∧
      ForcedWin false (b.setStatus a.1 a.2 Status.ENEMY) := by
  obtain ⟨c0, hc0, hw0⟩ := (Secures.second_iff _ b hn).1 hw
  obtain ⟨a, ha, _, hmax, hthink⟩ := AI_minimax.think_blank b ⟨c0.1, c0.2, hc0⟩
  refine ⟨a, ha, hthink, ?_⟩
  rw [← trialScore_pos_iff b a ha]
  have h1 := (trialScore_pos_iff b c0 hc0).2 hw0
  have h2 := hmax c0 hc0
  omega

/-- If Second can avoid defeat, the move of `think` keeps it that way. -/
theorem AI_minimax.think_keeps_hold (b : Board) (hn : b.calc_result = WINNER.NOT_FINISHED)
    (hw : Holds true b) :
    ∃ a : Fin 3 × Fin 3, b.status a.1 a.2 = Status.BLANK ∧
      AI_minimax.think b = Run.ok (true, b.setStatus a.1 a.2 Status.ENEMY) ∧
      Holds false (b.setStatus a.1 a.2 Status.ENEMY) := by
  obtain ⟨c0, hc0, hw0⟩ := (Secures.second_iff _ b hn).1 hw
  obtain ⟨a, ha, _, hmax, hthink⟩ := AI_minimax.think_blank b ⟨c0.1, c0.2, hc0⟩
  refine ⟨a, ha, hthink, ?_⟩
  rw [← trialScore_nonneg_iff b a ha]
  have h1 := (trialScore_nonneg_iff b c0 hc0).2 hw0
  have h2 := hmax c0 hc0
  omega

theorem Run.ok_inj {α : Type} (a a1 : α) (h : Run.ok a = Run.ok a1) : a = a1 := by
  cases h
  rfl

theorem thinkAlwaysWins_of_forced (k : Nat) (b : Board) (hk : b.blanks ≤ k)
    (hn : b.calc_result = WINNER.NOT_FINISHED) (hw : ForcedWin true b) :
    ThinkAlwaysWins b := by
  induction k generalizing b with
  | zero =>
    exfalso
    obtain ⟨a, ha, _, _⟩ := AI_minimax.think_keeps_win b hn hw
    have := Board.blanks_setStatus b a.1 a.2 Status.ENEMY ha (by decide)
    omega
  | succ k ih =>
    obtain ⟨a, ha, hthink, hw1⟩ := AI_minimax.think_keeps_win b hn hw
    have hb1 := Board.blanks_setStatus b a.1 a.2 Status.ENEMY ha (by decide)
    rcases Secures.result _ _ _ hw1 with hn1 | he1
    · apply ThinkAlwaysWins.goesOn b _ hthink hn1
      · intro x y b2 hput
        obtain ⟨r, c, _, _, hrc, rfl⟩ := Board.put_true _ b2 x y hput
        have hw2 : ForcedWin true ((b.setStatus a.1 a.2 Status.ENEMY).setStatus r c Status.PLAYER) :=
          (Secures.first_iff _ _ hn1).1 hw1 (r, c) hrc
        rcases Secures.result _ _ _ hw2 with hn2 | he2
        · exact hn2
        · exact absurd he2 (Board.calc_result_player_move _ r c hn1)
      · intro x y b2 hput
        obtain ⟨r, c, _, _, hrc, rfl⟩ := Board.put_true _ b2 x y hput
        have hw2 : ForcedWin true ((b.setStatus a.1 a.2 Status.ENEMY).setStatus r c Status.PLAYER) :=
          (Secures.first_iff _ _ hn1).1 hw1 (r, c) hrc
        have hb2 := Board.blanks_setStatus _ r c Status.PLAYER hrc (by decide)
        apply ih _ (by omega) _ hw2
        rcases Secures.result _ _ _ hw2 with hn2 | he2
        · exact hn2
        · exact absurd he2 (Board.calc_result_player_move _ r c hn1)
    · exact ThinkAlwaysWins.wins b _ hthink he1

/-! ## The loop of `main` -/

theorem Game.put_accepted (g g1 : Game) (x y : Int) (h : g.put x y = (true, g1)) :
    g.board_.put x y = (true, g1.board_) ∧ g1.winner_ = g1.board_.calc_result := by
  unfold Game.put at h
  cases hp : g.board_.put x y with
  | mk ret b1 =>
    rw [hp] at h
    cases ret with
    | true =>
      simp only [if_true, Prod.mk.injEq, true_and] at h
      subst h
      exact ⟨rfl, rfl⟩
    | false => simp at h

theorem Game.put_rejected (g g1 : Game) (x y : Int) (h : g.put x y = (false, g1)) : g1 = g := by
  unfold Game.put at h
  cases hp : g.board_.put x y with
  | mk ret b1 =>
    rw [hp] at h
    cases ret with
    | true => simp at h
    | false =>
      simp only [Bool.false_eq_true, if_false, Prod.mk.injEq, true_and] at h
      subst h
      rw [Board.put_false _ _ _ _ hp]

theorem Game.think_of_board (g : Game) (a : Fin 3 × Fin 3)
    (h : AI_minimax.think g.board_ = Run.ok (true, g.board_.setStatus a.1 a.2 Status.ENEMY)) :
    g.think = Run.ok (true, ⟨g.board_.setStatus a.1 a.2 Status.ENEMY,
      (g.board_.setStatus a.1 a.2 Status.ENEMY).calc_result⟩) := by
  unfold Game.think AI.think Game.ai_type
  simp only [h, if_true]

/-- The input loop of `main` ends with one accepted `put` on the game it started
with: rejected inputs change nothing. -/
theorem UserTurn.accepted_put (g g1 : Game) (h : UserTurn g g1) :
    ∃ x y : Int, g.put x y = (true, g1) := by
  induction h with
  | accepted g g1 x y hput => exact ⟨x, y, hput⟩
  | rejected g g1 g2 x y hput _ ih =>
    have := Game.put_rejected g g1 x y hput
    subst this
    exact ih

/-- The property kept by the loop of `main`: the cached winner is the outcome of the
board, `turn` is 0 or 1, and Second can avoid defeat from the current position. -/
theorem reached_invariant (s : Game × Nat) (h : Reached s) :
    s.1.winner_ = s.1.board_.calc_result ∧
      ((s.2 = 0 ∧ Holds false s.1.board_) ∨ (s.2 = 1 ∧ Holds true s.1.board_)) := by
  induction h with
  | start => exact ⟨by decide, Or.inl ⟨rfl, holds_empty⟩⟩
  | next s s1 _ hiter ih =>
    cases hiter with
    | user g g1 hnf hturn =>
      obtain ⟨hsync, hinv⟩ := ih
      have hhold : Holds false g.board_ := by
        rcases hinv with ⟨_, h⟩ | ⟨h, _⟩
        · exact h
        · simp at h
      have hn : g.board_.calc_result = WINNER.NOT_FINISHED := by
        rw [← hsync]
        exact hnf
      obtain ⟨x, y, hput⟩ := UserTurn.accepted_put g g1 hturn
      obtain ⟨hb, hw⟩ := Game.put_accepted g g1 x y hput
      refine ⟨hw, Or.inr ⟨rfl, ?_⟩⟩
      cases hhold with
      | over _ _ hne => exact absurd hn hne
      | first _ _ hall => exact hall x y _ hb
    | computer g g1 hnf hthink =>
      obtain ⟨hsync, hinv⟩ := ih
      have hhold : Holds true g.board_ := by
        rcases hinv with ⟨h, _⟩ | ⟨_, h⟩
        · simp at h
        · exact h
      have hn : g.board_.calc_result = WINNER.NOT_FINISHED := by
        rw [← hsync]
        exact hnf
      obtain ⟨a, _, hth, hkeep⟩ := AI_minimax.think_keeps_hold g.board_ hn hhold
      rw [Game.think_of_board g a hth] at hthink
      have := Run.ok_inj _ _ hthink
      simp only [Prod.mk.injEq, true_and] at this
      subst this
      exact ⟨rfl, Or.inl ⟨rfl, hkeep⟩⟩

/-! ## Determining the move of `think` from the decision procedure -/

/-- When exactly one move lets Second avoid defeat, `think` makes that move. -/
theorem AI_minimax.think_of_onlyHoldingMove (b : Board) (a : Fin 3 × Fin 3)
    (h : onlyHoldingMove b a = true) :
    AI_minimax.think b = Run.ok (true, b.setStatus a.1 a.2 Status.ENEMY) := by
  unfold onlyHoldingMove at h
  simp only [Bool.and_eq_true, Status.isBlank_iff, List.all_eq_true, Bool.or_eq_true,
    beq_iff_eq, Bool.not_eq_true', ← Bool.not_eq_true] at h
  obtain ⟨⟨ha, hgood⟩, hothers⟩ := h
  obtain ⟨a1, ha1, _, hmax, hthink⟩ := AI_minimax.think_blank b ⟨a.1, a.2, ha⟩
  have hscore : 0 ≤ trialScore b a :=
    (trialScore_nonneg_iff b a ha).2 ((holds_iff_securesB _ _).2 hgood)
  have hscore1 : 0 ≤ trialScore b a1 := le_trans hscore (hmax a ha)
  have hgood1 := (holds_iff_securesB _ _).1 ((trialScore_nonneg_iff b a1 ha1).1 hscore1)
  rcases hothers a1 (mem_cells a1) with (h1 | h1) | h1
  · rw [← h1]
    exact hthink
  · exact absurd ha1 h1
  · exact absurd hgood1 h1

theorem Game.think_onlyHolding (g : Game) (a : Fin 3 × Fin 3)
    (h : onlyHoldingMove g.board_ a = true) :
    g.think = Run.ok (true, ⟨g.board_.setStatus a.1 a.2 Status.ENEMY,
      (g.board_.setStatus a.1 a.2 Status.ENEMY).calc_result⟩) :=
  Game.think_of_board g a (AI_minimax.think_of_onlyHoldingMove g.board_ a h)

/-- The sample session is a run of the loop of `main`; the human's first input,
`(5, 5)`, is rejected. -/
theorem reached_sample : Reached (⟨sample6, WINNER.ENEMY⟩, 0) := by
  have r0 : Reached (Game.new, 0) := Reached.start
  have r1 : Reached (⟨sample1, WINNER.NOT_FINISHED⟩, 1) :=
    Reached.next _ _ r0 (Iteration.user _ _ rfl
      (UserTurn.rejected _ Game.new _ 5 5 (by decide)
        (UserTurn.accepted _ _ 0 0 (by decide))))
  have r2 : Reached (⟨sample2, WINNER.NOT_FINISHED⟩, 0) :=
    Reached.next _ _ r1 (Iteration.computer _ _ rfl
      (Game.think_onlyHolding ⟨sample1, WINNER.NOT_FINISHED⟩ (1, 1) (by decide!)))
  have r3 : Reached (⟨sample3, WINNER.NOT_FINISHED⟩, 1) :=
    Reached.next _ _ r2 (Iteration.user _ _ rfl (UserTurn.accepted _ _ 1 0 (by decide)))
  have r4 : Reached (⟨sample4, WINNER.NOT_FINISHED⟩, 0) :=
    Reached.next _ _ r3 (Iteration.computer _ _ rfl
      (Game.think_onlyHolding ⟨sample3, WINNER.NOT_FINISHED⟩ (0, 2) (by decide!)))
  have r5 : Reached (⟨sample5, WINNER.NOT_FINISHED⟩, 1) :=
    Reached.next _ _ r4 (Iteration.user _ _ rfl (UserTurn.accepted _ _ 0 1 (by decide)))
  exact Reached.next _ _ r5 (Iteration.computer _ _ rfl
    (Game.think_onlyHolding ⟨sample5, WINNER.NOT_FINISHED⟩ (2, 0) (by decide!)))

/-! ## Claims about `Mass::put`, `Board::put` and `AI_ordered::think` -/

/-- C6: for all integers `x`, `y` and every board, `Board::put(x, y)` returns
`false` and leaves the board unchanged if `x` or `y` is outside `0..2` or the cell
at column `x`, row `y` is not `BLANK`; otherwise it returns `true`, that cell
becomes `PLAYER`, and no other cell changes. -/
theorem Board.put_contract (b : Board) (x y : Int) :
    ((x < 0 ∨ 2 < x ∨ y < 0 ∨ 2 < y) → b.put x y = (false, b)) ∧
    (∀ r c : Fin 3, y = (r.val : Int) → x = (c.val : Int) →
      (b.status r c ≠ Status.BLANK → b.put x y = (false, b)) ∧
      (b.status r c = Status.BLANK →
        (b.put x y).1 = true ∧ (b.put x y).2.status r c = Status.PLAYER ∧
        ∀ r1 c1 : Fin 3, (r1, c1) ≠ (r, c) → (b.put x y).2.status r1 c1 = b.status r1 c1)) := by
  refine ⟨fun h => Board.put_outside b x y (by omega), ?_⟩
  intro r c hy hx
  subst hy hx
  refine ⟨Board.put_taken b r c, ?_⟩
  intro hb
  rw [Board.put_blank b r c hb]
  refine ⟨rfl, ?_, ?_⟩
  · simp [Board.status_setStatus]
  · intro r1 c1 hne
    have : ¬ (r1 = r ∧ c1 = c) := fun h => hne (by rw [h.1, h.2])
    simp only [Board.status_setStatus, if_neg this]

/-- C7: for every cell and every status `s`, `Mass::put(s)` returns `true` exactly
when the cell's current status is `BLANK`; when it returns `true` the cell's status
becomes `s`, and when it returns `false` the cell is unchanged. -/
theorem Mass.put_iff_blank (m : Mass) (s : Status) :
    ((m.put s).1 = true ↔ m.getStatus = Status.BLANK) ∧
    ((m.put s).1 = true → (m.put s).2.getStatus = s) ∧
    ((m.put s).1 = false → (m.put s).2 = m) := by
  by_cases h : m.getStatus = Status.BLANK
  · rw [Mass.put_of_blank m s h]
    simp [h]
    rfl
  · rw [Mass.put_of_taken m s h]
    simp [h]

/-- C8, refuted as stated: on a `BLANK` cell `put(BLANK)` succeeds and leaves the
cell `BLANK`, so the `put(PLAYER)` that follows succeeds too and changes the
cell. -/
theorem Mass.put_twice_counterexample :
    ¬ ((Mass.blank.put Status.BLANK).1 = true →
        ((Mass.blank.put Status.BLANK).2.put Status.PLAYER).1 = false ∧
        ((Mass.blank.put Status.BLANK).2.put Status.PLAYER).2 = (Mass.blank.put Status.BLANK).2) := by
  decide

/-- C8, amended: for every cell, every status `s1` other than `BLANK` and every
status `s2`, if `Mass::put(s1)` succeeds then an immediately following
`Mass::put(s2)` on the same cell fails and leaves the cell unchanged. -/
theorem Mass.put_write_once (m : Mass) (s1 s2 : Status) (hs : s1 ≠ Status.BLANK)
    (h : (m.put s1).1 = true) :
    ((m.put s1).2.put s2).1 = false ∧ ((m.put s1).2.put s2).2 = (m.put s1).2 := by
  by_cases hb : m.getStatus = Status.BLANK
  · rw [Mass.put_of_blank m s1 hb]
    have : (⟨s1⟩ : Mass).getStatus ≠ Status.BLANK := hs
    simp only [Mass.put_of_taken _ s2 this, and_self]
  · rw [Mass.put_of_taken m s1 hb] at h
    simp at h

theorem Mass.put_write_once_witness :
    ((Mass.blank.put Status.PLAYER).2.put Status.ENEMY).1 = false ∧
    ((Mass.blank.put Status.PLAYER).2.put Status.ENEMY).2 = (Mass.blank.put Status.PLAYER).2 :=
  Mass.put_write_once Mass.blank Status.PLAYER Status.ENEMY (by decide) (by decide)

/-- C9: for every board, `AI_ordered::think` returns `false` and leaves the board
unchanged exactly when no cell is `BLANK`; otherwise it returns `true`, sets the
first `BLANK` cell in row-major order to `ENEMY` and changes no other cell; on the
empty board the cell it marks is `(0,0)`. -/
theorem AI_ordered.think_contract (b : Board) :
    ((AI_ordered.think b).1 = false ↔ ∀ r c : Fin 3, b.status r c ≠ Status.BLANK) ∧
    ((AI_ordered.think b).1 = false → (AI_ordered.think b).2 = b) ∧
    ((AI_ordered.think b).1 = true →
      ∃ r c : Fin 3, b.status r c = Status.BLANK ∧
        (∀ r1 c1 : Fin 3, (r1 < r ∨ (r1 = r ∧ c1 < c)) → b.status r1 c1 ≠ Status.BLANK) ∧
        (AI_ordered.think b).2.status r c = Status.ENEMY ∧
        ∀ r1 c1 : Fin 3, (r1, c1) ≠ (r, c) →
          (AI_ordered.think b).2.status r1 c1 = b.status r1 c1) ∧
    (AI_ordered.think Board.empty).1 = true ∧
    (AI_ordered.think Board.empty).2.status 0 0 = Status.ENEMY := by
  have key : (∀ r c : Fin 3, b.status r c ≠ Status.BLANK) ∨
      ∃ r c : Fin 3, b.status r c = Status.BLANK ∧
        (∀ r1 c1 : Fin 3, (r1 < r ∨ (r1 = r ∧ c1 < c)) → b.status r1 c1 ≠ Status.BLANK) ∧
        AI_ordered.think b = (true, b.setStatus r c Status.ENEMY) := by
    by_cases hfull : ∀ r c : Fin 3, b.status r c ≠ Status.BLANK
    · exact Or.inl hfull
    · right
      have hex : ∃ c ∈ cells, b.status c.1 c.2 = Status.BLANK := by
        push_neg at hfull
        obtain ⟨r, c, h⟩ := hfull
        exact ⟨(r, c), mem_cells _, h⟩
      obtain ⟨l1, c, l2, hsplit, hl1, hc⟩ := first_blank_split b cells hex
      refine ⟨c.1, c.2, hc, ?_, ?_⟩
      · intro r1 c1 hlt
        exact hl1 (r1, c1) ((cells_split_before l1 l2 c hsplit (r1, c1)).2 hlt)
      · unfold AI_ordered.think
        rw [hsplit]
        exact AI_ordered.thinkLoop_first b l1 l2 c hl1 hc
  refine ⟨?_, ?_, ?_, by decide, by decide⟩
  · rcases key with hfull | ⟨r, c, hb, _, heq⟩
    · have : AI_ordered.think b = (false, b) :=
        AI_ordered.thinkLoop_full b cells (fun c _ => hfull c.1 c.2)
      simp [this, hfull]
    · rw [heq]
      simp only [Bool.true_eq_false, false_iff, not_forall, not_not]
      exact ⟨r, c, hb⟩
  · rcases key with hfull | ⟨r, c, hb, _, heq⟩
    · have : AI_ordered.think b = (false, b) :=
        AI_ordered.thinkLoop_full b cells (fun c _ => hfull c.1 c.2)
      simp [this]
    · rw [heq]
      simp
  · rcases key with hfull | ⟨r, c, hb, hfirst, heq⟩
    · have : AI_ordered.think b = (false, b) :=
        AI_ordered.thinkLoop_full b cells (fun c _ => hfull c.1 c.2)
      simp [this]
    · intro _
      refine ⟨r, c, hb, hfirst, ?_, ?_⟩
      · rw [heq]
        simp [Board.status_setStatus]
      · intro r1 c1 hne
        have : ¬ (r1 = r ∧ c1 = c) := fun h => hne (by rw [h.1, h.2])
        rw [heq]
        simp only [Board.status_setStatus, if_neg this]

/-! ## Claims about `Board::calc_result` -/

/-- C4: for every board, `calc_result` returns a winner `W` in `{PLAYER, ENEMY}`
only if one of the 3 rows, 3 columns or 2 diagonals holds three cells all equal to
`W`, and it returns some winner whenever at least one of those 8 lines holds three
identical non-`BLANK` marks; so when exactly one player has a complete line the
result is that player, e.g. any row of three `ENEMY` with every other cell `BLANK`
gives `ENEMY`. -/
theorem Board.calc_result_winner (b : Board) :
    (b.calc_result = WINNER.PLAYER → b.hasLine Status.PLAYER) ∧
    (b.calc_result = WINNER.ENEMY → b.hasLine Status.ENEMY) ∧
    (b.hasLine Status.PLAYER ∨ b.hasLine Status.ENEMY →
      b.calc_result = WINNER.PLAYER ∨ b.calc_result = WINNER.ENEMY) ∧
    (b.hasLine Status.PLAYER → ¬ b.hasLine Status.ENEMY → b.calc_result = WINNER.PLAYER) ∧
    (b.hasLine Status.ENEMY → ¬ b.hasLine Status.PLAYER → b.calc_result = WINNER.ENEMY) ∧
    (∀ y : Fin 3,
      (∀ r c : Fin 3, b.status r c = if r = y then Status.ENEMY else Status.BLANK) →
      b.calc_result = WINNER.ENEMY) := by
  have hP := Board.calc_result_player b
  have hE := Board.calc_result_enemy b
  have hL := Board.calc_result_of_line b
  have onlyE : b.hasLine Status.ENEMY → ¬ b.hasLine Status.PLAYER →
      b.calc_result = WINNER.ENEMY := by
    intro h1 h2
    rcases hL (Or.inr h1) with h | h
    · exact absurd (hP h) h2
    · exact h
  refine ⟨hP, hE, hL, ?_, onlyE, ?_⟩
  · intro h1 h2
    rcases hL (Or.inl h1) with h | h
    · exact h
    · exact absurd (hE h) h2
  · intro y hb
    apply onlyE
    · refine ⟨[(y, 0), (y, 1), (y, 2)], ?_, ?_⟩
      · fin_cases y <;> simp [lineCells]
      · intro c hc
        simp only [List.mem_cons, List.mem_singleton, List.not_mem_nil, or_false] at hc
        rcases hc with rfl | rfl | rfl <;> simp [hb]
    · rintro ⟨l, hl, hall⟩
      have hne : ∀ l ∈ lineCells, ∃ c, c ∈ l := by decide
      obtain ⟨c, hc⟩ := hne l hl
      have := hall c hc
      rw [hb] at this
      split at this <;> simp at this

/-- C5: for every board on which none of the 8 lines holds three identical
non-`BLANK` marks, `calc_result` returns `NOT_FINISHED` if at least one cell is
`BLANK` and `DRAW` otherwise. -/
theorem Board.calc_result_open (b : Board) (hP : ¬ b.hasLine Status.PLAYER)
    (hE : ¬ b.hasLine Status.ENEMY) :
    ((∃ r c : Fin 3, b.status r c = Status.BLANK) → b.calc_result = WINNER.NOT_FINISHED) ∧
    ((∀ r c : Fin 3, b.status r c ≠ Status.BLANK) → b.calc_result = WINNER.DRAW) := by
  have h := Board.calc_result_no_line b hP hE
  constructor
  · intro hb
    rw [h, if_pos ((AI_minimax.isMovesLeft_iff b).2 hb)]
  · intro hfull
    have : ¬ AI_minimax.isMovesLeft b = true := by
      rw [AI_minimax.isMovesLeft_iff]
      rintro ⟨r, c, hrc⟩
      exact hfull r c hrc
    rw [h, if_neg this]

/-- C5 at two concrete boards: the empty board is `NOT_FINISHED`, and a full board
without a complete line is a `DRAW`. -/
theorem Board.calc_result_open_witness :
    (¬ Board.empty.hasLine Status.PLAYER ∧ ¬ Board.empty.hasLine Status.ENEMY ∧
      Board.empty.calc_result = WINNER.NOT_FINISHED) ∧
    (¬ drawnBoard.hasLine Status.PLAYER ∧ ¬ drawnBoard.hasLine Status.ENEMY ∧
      (∀ r c : Fin 3, drawnBoard.status r c ≠ Status.BLANK) ∧
      drawnBoard.calc_result = WINNER.DRAW) :=
  ⟨⟨by decide, by decide,
      (Board.calc_result_open Board.empty (by decide) (by decide)).1 ⟨0, 0, rfl⟩⟩,
    ⟨by decide, by decide, by decide,
      (Board.calc_result_open drawnBoard (by decide) (by decide)).2 (by decide)⟩⟩

/-! ## Claims about `AI_minimax::think` and the game -/

/-- C1: in every state that the loop of `main` reaches from a freshly constructed
game (the human moving first with any accepted `put`, `AI_minimax::think` answering,
play stopping at the first outcome other than `NOT_FINISHED`), the message shown
when the session ends there is never `PLAYER`: it is `DRAW` or `ENEMY`.  The cached
winner is the outcome of the board, and on the computer's turn of an unfinished game
`think` succeeds, so the computer never resigns. -/
theorem minimax_never_loses (s : Game × Nat) (h : Reached s) :
    (∀ w, endMessage s = some w → w = WINNER.DRAW ∨ w = WINNER.ENEMY) ∧
    s.1.is_finished = s.1.board_.calc_result ∧
    s.1.board_.calc_result ≠ WINNER.PLAYER ∧
    (s.2 = 1 → s.1.is_finished = WINNER.NOT_FINISHED →
      ∃ g1, s.1.think = Run.ok (true, g1)) := by
  obtain ⟨hsync, hinv⟩ := reached_invariant s h
  have hres : s.1.board_.calc_result = WINNER.NOT_FINISHED ∨
      (s.1.board_.calc_result = WINNER.ENEMY ∨ s.1.board_.calc_result = WINNER.DRAW) := by
    rcases hinv with ⟨_, hh⟩ | ⟨_, hh⟩
    · exact Secures.result _ _ _ hh
    · exact Secures.result _ _ _ hh
  have hthink : s.2 = 1 → s.1.is_finished = WINNER.NOT_FINISHED →
      ∃ g1, s.1.think = Run.ok (true, g1) := by
    intro hturn hnf
    have hn : s.1.board_.calc_result = WINNER.NOT_FINISHED := by
      rw [← hsync]
      exact hnf
    have hhold : Holds true s.1.board_ := by
      rcases hinv with ⟨h0, _⟩ | ⟨_, hh⟩
      · omega
      · exact hh
    obtain ⟨a, _, hth, _⟩ := AI_minimax.think_keeps_hold s.1.board_ hn hhold
    exact ⟨_, Game.think_of_board s.1 a hth⟩
  refine ⟨?_, hsync, ?_, hthink⟩
  · intro w hw
    unfold endMessage at hw
    by_cases hfin : s.1.is_finished ≠ WINNER.NOT_FINISHED
    · rw [if_pos hfin] at hw
      have hw1 : s.1.winner_ = w := by simpa [Game.is_finished] using hw
      rw [← hw1, hsync]
      rw [Game.is_finished, hsync] at hfin
      rcases hres with h1 | h1 | h1
      · exact absurd h1 hfin
      · exact Or.inr h1
      · exact Or.inl h1
    · rw [if_neg hfin] at hw
      by_cases hturn : s.2 = 0
      · rw [if_pos hturn] at hw
        simp at hw
      · rw [if_neg hturn] at hw
        have h1 : s.2 = 1 := by
          rcases hinv with ⟨h0, _⟩ | ⟨h1, _⟩
          · exact absurd h0 hturn
          · exact h1
        obtain ⟨g1, hg1⟩ := hthink h1 (by simpa using hfin)
        rw [hg1] at hw
        simp at hw
  · rcases hres with h1 | h1 | h1 <;> rw [h1] <;> simp

/-- C1 at the end of the sample session, in which the human plays `(0,0)`, `(0,1)`,
`(1,0)` and the computer answers `(1,1)`, `(0,2)`, `(2,0)`: the state is reached by
the loop of `main`, and the message shown there is `ENEMY`. -/
theorem minimax_never_loses_witness :
    Reached (⟨sample6, WINNER.ENEMY⟩, 0) ∧
    endMessage (⟨sample6, WINNER.ENEMY⟩, 0) = some WINNER.ENEMY ∧
    (∀ w, endMessage (⟨sample6, WINNER.ENEMY⟩, 0) = some w →
      w = WINNER.DRAW ∨ w = WINNER.ENEMY) ∧
    (⟨sample6, WINNER.ENEMY⟩ : Game).is_finished = sample6.calc_result ∧
    sample6.calc_result ≠ WINNER.PLAYER ∧
    ((0 : Nat) = 1 → (⟨sample6, WINNER.ENEMY⟩ : Game).is_finished = WINNER.NOT_FINISHED →
      ∃ g1, (⟨sample6, WINNER.ENEMY⟩ : Game).think = Run.ok (true, g1)) :=
  ⟨reached_sample, rfl, minimax_never_loses (⟨sample6, WINNER.ENEMY⟩, 0) reached_sample⟩

/-- C2: for every board whose outcome is `NOT_FINISHED` and from which Second,
moving next, can force a win, alternating play in which Second's moves are chosen
by `AI_minimax::think` and First's moves are arbitrary accepted `put`s always ends
with `calc_result() == ENEMY`. -/
theorem think_wins_when_forced (b : Board) (hn : b.calc_result = WINNER.NOT_FINISHED)
    (hw : ForcedWin true b) : ThinkAlwaysWins b :=
  thinkAlwaysWins_of_forced b.blanks b (le_refl _) hn hw

/-- C2 on a board where Second wins by completing the top row. -/
theorem think_wins_when_forced_witness :
    winnableBoard.calc_result = WINNER.NOT_FINISHED ∧ ForcedWin true winnableBoard ∧
      ThinkAlwaysWins winnableBoard :=
  ⟨by decide,
    Secures.second winnableBoard 0 2 (by decide) (by decide)
      (Secures.over false _ (by decide) (by decide)),
    think_wins_when_forced winnableBoard (by decide)
      (Secures.second winnableBoard 0 2 (by decide) (by decide)
        (Secures.over false _ (by decide) (by decide)))⟩

/-- C3, refuted as stated: on a board without a `BLANK` cell no run of `think` ends
with a board that differs from the board before the call in exactly one cell that
was `BLANK` and is now `ENEMY`. -/
theorem AI_minimax.think_frame_counterexample :
    ¬ ∃ (p : Bool × Board) (r c : Fin 3), AI_minimax.think drawnBoard = Run.ok p ∧
      drawnBoard.status r c = Status.BLANK ∧ p.2.status r c = Status.ENEMY ∧
      ∀ r1 c1 : Fin 3, (r1, c1) ≠ (r, c) → p.2.status r1 c1 = drawnBoard.status r1 c1 := by
  rintro ⟨_, r, c, _, hb, _⟩
  have hfull : ∀ r c : Fin 3, drawnBoard.status r c ≠ Status.BLANK := by decide
  exact hfull r c hb

/-- C3, amended: for any board with at least one `BLANK` cell, a full invocation of
`AI_minimax::think` returns `true` and leaves a board that differs from the board
before the call in exactly one cell, which was `BLANK` and is now `ENEMY`. -/
theorem AI_minimax.think_frame (b : Board)
    (h : ∃ r c : Fin 3, b.status r c = Status.BLANK) :
    ∃ (b1 : Board) (r c : Fin 3), AI_minimax.think b = Run.ok (true, b1) ∧
      b.status r c = Status.BLANK ∧ b1.status r c = Status.ENEMY ∧
      ∀ r1 c1 : Fin 3, (r1, c1) ≠ (r, c) → b1.status r1 c1 = b.status r1 c1 := by
  obtain ⟨a, ha, _, _, hthink⟩ := AI_minimax.think_blank b h
  refine ⟨_, a.1, a.2, hthink, ha, ?_, ?_⟩
  · simp [Board.status_setStatus]
  · intro r1 c1 hne
    have : ¬ (r1 = a.1 ∧ c1 = a.2) := fun h => hne (by rw [h.1, h.2])
    simp only [Board.status_setStatus, if_neg this]

/-- C3, amended, on the empty board. -/
theorem AI_minimax.think_frame_witness :
    ∃ (b1 : Board) (r c : Fin 3), AI_minimax.think Board.empty = Run.ok (true, b1) ∧
      Board.empty.status r c = Status.BLANK ∧ b1.status r c = Status.ENEMY ∧
      ∀ r1 c1 : Fin 3, (r1, c1) ≠ (r, c) → b1.status r1 c1 = Board.empty.status r1 c1 :=
  AI_minimax.think_frame Board.empty ⟨0, 0, rfl⟩

/-- C10, the defect: on a full board `AI_minimax::think` does not return `false`;
it leaves its loops with `bestMoveRow = bestMoveCol = -1` and writes to
`mass_[-1][-1]`, outside the array, whereas `AI_ordered::think` returns `false` and
leaves the board unchanged. -/
theorem AI_minimax.think_full_board :
    AI_minimax.thinkScan drawnBoard = some ⟨drawnBoard, -1000, -1, -1⟩ ∧
    AI_minimax.think drawnBoard = Run.outOfBounds ∧
    AI_ordered.think drawnBoard = (false, drawnBoard) := by
  refine ⟨?_, AI_minimax.think_full drawnBoard (by decide), by decide⟩
  unfold AI_minimax.thinkScan
  rw [AI_minimax.forCells_thinkBody]
  rfl

/-! ## Sharper bounds on the score -/

/-- At depth `d` no score is above `10 - d` or below `-10 + d`. -/
theorem scoreF_depth_bounds (n : Nat) (b : Board) (d : Int) (m : Bool) (hd : 0 ≤ d)
    (hdb : d + (b.blanks : Int) ≤ 9) (hn : b.blanks < n) :
    -10 + d ≤ scoreF n b d m ∧ scoreF n b d m ≤ 10 - d := by
  induction n generalizing b d m with
  | zero => omega
  | succ n ih =>
    have hchild : ∀ (s : Status), s ≠ Status.BLANK → ∀ c : Fin 3 × Fin 3,
        b.status c.1 c.2 = Status.BLANK → ∀ m1 : Bool,
        -10 + (d + 1) ≤ scoreF n (b.setStatus c.1 c.2 s) (d + 1) m1 ∧
          scoreF n (b.setStatus c.1 c.2 s) (d + 1) m1 ≤ 10 - (d + 1) := by
      intro s hs c hc m1
      have := Board.blanks_setStatus b c.1 c.2 s hc hs
      exact ih _ _ _ (by omega) (by omega) (by omega)
    have hnat : (0 : Int) ≤ (b.blanks : Int) := Int.ofNat_nonneg _
    cases hres : b.calc_result with
    | ENEMY => rw [scoreF_enemy n b d m hres]; omega
    | PLAYER => rw [scoreF_player n b d m hres]; omega
    | DRAW => rw [scoreF_draw n b d m hres]; omega
    | NOT_FINISHED =>
      obtain ⟨r, c, hrc⟩ := (AI_minimax.isMovesLeft_iff b).1 (Board.not_finished_movesLeft b hres)
      cases m with
      | true =>
        rw [scoreF_max n b d hres]
        constructor
        · rw [le_foldl_max (fun c : Fin 3 × Fin 3 => b.status c.1 c.2 = Status.BLANK)]
          have := (hchild Status.ENEMY (by decide) (r, c) hrc false).1
          exact Or.inr ⟨(r, c), mem_cells _, hrc, by omega⟩
        · rw [← Int.lt_add_one_iff, ← not_le,
            le_foldl_max (fun c : Fin 3 × Fin 3 => b.status c.1 c.2 = Status.BLANK)]
          rintro (h | ⟨c1, _, hc1, hle⟩)
          · omega
          · have := (hchild Status.ENEMY (by decide) c1 hc1 false).2
            omega
      | false =>
        rw [scoreF_min n b d hres]
        constructor
        · rw [le_foldl_min (fun c : Fin 3 × Fin 3 => b.status c.1 c.2 = Status.BLANK)]
          refine ⟨by omega, fun c1 _ hc1 => ?_⟩
          have := (hchild Status.PLAYER (by decide) c1 hc1 true).1
          omega
        · rw [← Int.lt_add_one_iff, ← not_le,
            le_foldl_min (fun c : Fin 3 × Fin 3 => b.status c.1 c.2 = Status.BLANK)]
          rintro ⟨_, hall⟩
          have h1 := hall (r, c) (mem_cells _) hrc
          have h2 := (hchild Status.PLAYER (by decide) (r, c) hrc true).2
          omega

/-- An unfinished position scores strictly less than an immediate win. -/
theorem scoreF_not_finished_lt (n : Nat) (b : Board) (d : Int) (m : Bool) (hd : 0 ≤ d)
    (hdb : d + (b.blanks : Int) ≤ 9) (hn : b.blanks < n)
    (hres : b.calc_result = WINNER.NOT_FINISHED) : scoreF n b d m < 10 - d := by
  cases n with
  | zero => omega
  | succ n =>
    have hchild : ∀ (s : Status), s ≠ Status.BLANK → ∀ c : Fin 3 × Fin 3,
        b.status c.1 c.2 = Status.BLANK → ∀ m1 : Bool,
        scoreF n (b.setStatus c.1 c.2 s) (d + 1) m1 ≤ 10 - (d + 1) := by
      intro s hs c hc m1
      have := Board.blanks_setStatus b c.1 c.2 s hc hs
      exact (scoreF_depth_bounds _ _ _ _ (by omega) (by omega) (by omega)).2
    obtain ⟨r, c, hrc⟩ := (AI_minimax.isMovesLeft_iff b).1 (Board.not_finished_movesLeft b hres)
    cases m with
    | true =>
      rw [scoreF_max n b d hres, ← not_le,
        le_foldl_max (fun c : Fin 3 × Fin 3 => b.status c.1 c.2 = Status.BLANK)]
      rintro (h | ⟨c1, _, hc1, hle⟩)
      · omega
      · have := hchild Status.ENEMY (by decide) c1 hc1 false
        omega
    | false =>
      rw [scoreF_min n b d hres, ← not_le,
        le_foldl_min (fun c : Fin 3 × Fin 3 => b.status c.1 c.2 = Status.BLANK)]
      rintro ⟨_, hall⟩
      have h1 := hall (r, c) (mem_cells _) hrc
      have h2 := hchild Status.PLAYER (by decide) (r, c) hrc true
      omega

/-- The trial score of a move is `10` exactly when the move wins at once. -/
theorem trialScore_eq_ten_iff (b : Board) (a : Fin 3 × Fin 3)
    (ha : b.status a.1 a.2 = Status.BLANK) :
    trialScore b a = 10 ↔ (b.setStatus a.1 a.2 Status.ENEMY).calc_result = WINNER.ENEMY := by
  have h1 := Board.blanks_setStatus b a.1 a.2 Status.ENEMY ha (by decide)
  have h2 := Board.blanks_le b
  have hfuel : searchFuel = 9 + 1 := rfl
  unfold trialScore
  constructor
  · intro h10
    cases hres : (b.setStatus a.1 a.2 Status.ENEMY).calc_result with
    | ENEMY => rfl
    | PLAYER =>
      rw [hfuel, scoreF_player 9 _ 0 false hres] at h10
      omega
    | DRAW =>
      rw [hfuel, scoreF_draw 9 _ 0 false hres] at h10
      omega
    | NOT_FINISHED =>
      have := scoreF_not_finished_lt searchFuel _ 0 false (by omega) (by omega)
        (by rw [hfuel]; omega) hres
      omega
  · intro hres
    rw [hfuel, scoreF_enemy 9 _ 0 false hres]
    rfl

/-- The score that `think` compares is the score that `minimax` returns for the
trial position, and `minimax` hands the trial position back unchanged. -/
theorem AI_minimax.minimax_trial (b : Board) (c : Fin 3 × Fin 3) :
    AI_minimax.minimax (b.setStatus c.1 c.2 Status.ENEMY) 0 false =
      some (trialScore b c, b.setStatus c.1 c.2 Status.ENEMY) :=
  AI_minimax.minimax_zero _ false

/-- On a board with a `BLANK` cell the loops of `think` end with the indices of a
`BLANK` cell in `bestMoveRow` and `bestMoveCol`, with its score in `bestVal`, and
with the board as it was. -/
theorem AI_minimax.thinkScan_blank (b : Board)
    (h : ∃ r c : Fin 3, b.status r c = Status.BLANK) :
    ∃ a : Fin 3 × Fin 3, b.status a.1 a.2 = Status.BLANK ∧
      AI_minimax.thinkScan b = some ⟨b, trialScore b a, (a.1.val : Int), (a.2.val : Int)⟩ ∧
      AI_minimax.think b = Run.ok (true, b.setStatus a.1 a.2 Status.ENEMY) := by
  obtain ⟨r0, c0, h0⟩ := h
  rcases bestFold_spec b cells (-1000) (-1) (-1) with ⟨_, hall⟩ |
    ⟨l1, a, l2, hsplit, ha, _, h1, h2, heq⟩
  · exfalso
    have := hall (r0, c0) (mem_cells _) h0
    have := (trialScore_bounds b (r0, c0) h0).1
    omega
  · refine ⟨a, ha, ?_, ?_⟩
    · unfold AI_minimax.thinkScan
      rw [AI_minimax.forCells_thinkBody, heq]
    · unfold AI_minimax.think AI_minimax.thinkScan
      rw [AI_minimax.forCells_thinkBody, heq]
      simp only [cellAt?_val]

/-! ## The base cases of `minimax` in 32-bit arithmetic -/

theorem rowMajorBefore_total (a c : Fin 3 × Fin 3) :
    rowMajorBefore c a ∨ c = a ∨ rowMajorBefore a c := by
  revert a c
  decide

/-- On an unfinished board, a move of Second wins at once exactly when it
completes a line of `ENEMY` marks. -/
theorem Board.enemy_move_wins_iff (b : Board) (r c : Fin 3)
    (hn : b.calc_result = WINNER.NOT_FINISHED) :
    (b.setStatus r c Status.ENEMY).calc_result = WINNER.ENEMY ↔
      (b.setStatus r c Status.ENEMY).hasLine Status.ENEMY := by
  constructor
  · exact Board.calc_result_enemy _
  · intro hl
    rcases Board.calc_result_of_line _ (Or.inr hl) with h | h
    · exact absurd h (Board.calc_result_enemy_move b r c hn)
    · exact h

/-- On an unfinished board, a move of First wins at once exactly when it completes
a line of `PLAYER` marks. -/
theorem Board.player_move_wins_iff (b : Board) (r c : Fin 3)
    (hn : b.calc_result = WINNER.NOT_FINISHED) :
    (b.setStatus r c Status.PLAYER).calc_result = WINNER.PLAYER ↔
      (b.setStatus r c Status.PLAYER).hasLine Status.PLAYER := by
  constructor
  · exact Board.calc_result_player _
  · intro hl
    rcases Board.calc_result_of_line _ (Or.inl hl) with h | h
    · exact h
    · exact absurd h (Board.calc_result_player_move b r c hn)

/-- When some move wins at once, `think` makes the first such move. -/
theorem AI_minimax.think_first_win (b : Board) (c0 : Fin 3 × Fin 3)
    (hc0 : b.status c0.1 c0.2 = Status.BLANK)
    (hw0 : (b.setStatus c0.1 c0.2 Status.ENEMY).calc_result = WINNER.ENEMY) :
    ∃ a : Fin 3 × Fin 3, b.status a.1 a.2 = Status.BLANK ∧
      (b.setStatus a.1 a.2 Status.ENEMY).calc_result = WINNER.ENEMY ∧
      (∀ c, rowMajorBefore c a → b.status c.1 c.2 = Status.BLANK →
        (b.setStatus c.1 c.2 Status.ENEMY).calc_result ≠ WINNER.ENEMY) ∧
      AI_minimax.think b = Run.ok (true, b.setStatus a.1 a.2 Status.ENEMY) := by
  obtain ⟨a, ha, hfirst, hmax, hthink⟩ := AI_minimax.think_blank b ⟨c0.1, c0.2, hc0⟩
  have h10 : trialScore b a = 10 := by
    have h1 := (trialScore_eq_ten_iff b c0 hc0).2 hw0
    have h2 := hmax c0 hc0
    have h3 := (trialScore_bounds b a ha).2
    omega
  refine ⟨a, ha, (trialScore_eq_ten_iff b a ha).1 h10, ?_, hthink⟩
  intro c hbefore hc hwin
  have h1 := (trialScore_eq_ten_iff b c hc).2 hwin
  have h2 := hfirst c hbefore hc
  omega

/-! ## Claims about the choice made by `AI_minimax::think` -/

/-- C13: for every board with at least one `BLANK` cell, the cell `think` marks is
the first cell in row-major scan order among the `BLANK` cells whose trial score
(the value of `minimax(b', 0, false)` on the board `b'` with that cell set to
`ENEMY`) equals the maximum trial score over all `BLANK` cells. -/
theorem AI_minimax.think_first_best (b : Board)
    (h : ∃ r c : Fin 3, b.status r c = Status.BLANK) :
    ∃ a : Fin 3 × Fin 3, b.status a.1 a.2 = Status.BLANK ∧
      AI_minimax.think b = Run.ok (true, b.setStatus a.1 a.2 Status.ENEMY) ∧
      (∀ c : Fin 3 × Fin 3,
        AI_minimax.minimax (b.setStatus c.1 c.2 Status.ENEMY) 0 false =
          some (trialScore b c, b.setStatus c.1 c.2 Status.ENEMY)) ∧
      (∀ c : Fin 3 × Fin 3, b.status c.1 c.2 = Status.BLANK →
        trialScore b c ≤ trialScore b a) ∧
      (∀ c : Fin 3 × Fin 3, b.status c.1 c.2 = Status.BLANK →
        trialScore b c = trialScore b a → c = a ∨ rowMajorBefore a c) := by
  obtain ⟨a, ha, hfirst, hmax, hthink⟩ := AI_minimax.think_blank b h
  refine ⟨a, ha, hthink, AI_minimax.minimax_trial b, hmax, ?_⟩
  intro c hc heq
  rcases rowMajorBefore_total a c with hb | hb | hb
  · have := hfirst c hb hc
    omega
  · exact Or.inl hb
  · exact Or.inr hb

/-- C13 on the board of the sample session after the human's first move. -/
theorem AI_minimax.think_first_best_witness :
    ∃ a : Fin 3 × Fin 3, sample1.status a.1 a.2 = Status.BLANK ∧
      AI_minimax.think sample1 = Run.ok (true, sample1.setStatus a.1 a.2 Status.ENEMY) ∧
      (∀ c : Fin 3 × Fin 3,
        AI_minimax.minimax (sample1.setStatus c.1 c.2 Status.ENEMY) 0 false =
          some (trialScore sample1 c, sample1.setStatus c.1 c.2 Status.ENEMY)) ∧
      (∀ c : Fin 3 × Fin 3, sample1.status c.1 c.2 = Status.BLANK →
        trialScore sample1 c ≤ trialScore sample1 a) ∧
      (∀ c : Fin 3 × Fin 3, sample1.status c.1 c.2 = Status.BLANK →
        trialScore sample1 c = trialScore sample1 a → c = a ∨ rowMajorBefore a c) :=
  AI_minimax.think_first_best sample1 ⟨0, 1, rfl⟩

/-- C14: starting from the empty board, `Board::put(0, 0)` succeeds, the outcome is
then `NOT_FINISHED`, and `AI_minimax::think` on that board returns `true` and places
`ENEMY` on the centre cell `(1,1)`, changing nothing else. -/
theorem scenario_corner_then_centre :
    Board.empty.put 0 0 = (true, sample1) ∧
    sample1.calc_result = WINNER.NOT_FINISHED ∧
    AI_minimax.think sample1 = Run.ok (true, sample1.setStatus 1 1 Status.ENEMY) ∧
    (sample1.setStatus 1 1 Status.ENEMY).status 1 1 = Status.ENEMY ∧
    ∀ r c : Fin 3, (r, c) ≠ (1, 1) →
      (sample1.setStatus 1 1 Status.ENEMY).status r c = sample1.status r c := by
  refine ⟨by decide, by decide,
    AI_minimax.think_of_onlyHoldingMove sample1 (1, 1) (by decide!), by decide, by decide⟩

/-- C15: for every board with at least one `BLANK` cell, `think` never indexes
outside the grid: every trial score returned by `minimax` at depth 0 is strictly
between `-1000` and `1000`, so `bestMoveRow` and `bestMoveCol` end in `0..2` naming a
cell that was `BLANK`, and `think` returns `true`. -/
theorem AI_minimax.think_in_grid (b : Board)
    (h : ∃ r c : Fin 3, b.status r c = Status.BLANK) :
    (∀ c : Fin 3 × Fin 3, b.status c.1 c.2 = Status.BLANK →
      ∃ v : Int, AI_minimax.minimax (b.setStatus c.1 c.2 Status.ENEMY) 0 false =
          some (v, b.setStatus c.1 c.2 Status.ENEMY) ∧ -1000 < v ∧ v < 1000) ∧
    ∃ (st : ThinkState) (r c : Fin 3), AI_minimax.thinkScan b = some st ∧
      st.bestMoveRow = (r.val : Int) ∧ st.bestMoveCol = (c.val : Int) ∧
      0 ≤ st.bestMoveRow ∧ st.bestMoveRow ≤ 2 ∧ 0 ≤ st.bestMoveCol ∧ st.bestMoveCol ≤ 2 ∧
      b.status r c = Status.BLANK ∧
      AI_minimax.think b = Run.ok (true, b.setStatus r c Status.ENEMY) := by
  constructor
  · intro c hc
    have := trialScore_bounds b c hc
    exact ⟨trialScore b c, AI_minimax.minimax_trial b c, by omega, by omega⟩
  · obtain ⟨a, ha, hscan, hthink⟩ := AI_minimax.thinkScan_blank b h
    have h1 := a.1.isLt
    have h2 := a.2.isLt
    exact ⟨_, a.1, a.2, hscan, rfl, rfl, by simp, by simp; omega, by simp, by simp; omega,
      ha, hthink⟩

/-- C15 on the empty board. -/
theorem AI_minimax.think_in_grid_witness :
    (∀ c : Fin 3 × Fin 3, Board.empty.status c.1 c.2 = Status.BLANK →
      ∃ v : Int, AI_minimax.minimax (Board.empty.setStatus c.1 c.2 Status.ENEMY) 0 false =
          some (v, Board.empty.setStatus c.1 c.2 Status.ENEMY) ∧ -1000 < v ∧ v < 1000) ∧
    ∃ (st : ThinkState) (r c : Fin 3), AI_minimax.thinkScan Board.empty = some st ∧
      st.bestMoveRow = (r.val : Int) ∧ st.bestMoveCol = (c.val : Int) ∧
      0 ≤ st.bestMoveRow ∧ st.bestMoveRow ≤ 2 ∧ 0 ≤ st.bestMoveCol ∧ st.bestMoveCol ≤ 2 ∧
      Board.empty.status r c = Status.BLANK ∧
      AI_minimax.think Board.empty = Run.ok (true, Board.empty.setStatus r c Status.ENEMY) :=
  AI_minimax.think_in_grid Board.empty ⟨0, 0, rfl⟩

/-- C17: for every board with `calc_result() == NOT_FINISHED` on which some `BLANK`
cell would complete a line of three `ENEMY` marks, `think` marks such a cell, the
first one in row-major order, so `calc_result()` is `ENEMY` immediately after the
call. -/
theorem AI_minimax.think_takes_win (b : Board) (hn : b.calc_result = WINNER.NOT_FINISHED)
    (h : ∃ r c : Fin 3, b.status r c = Status.BLANK ∧
      (b.setStatus r c Status.ENEMY).hasLine Status.ENEMY) :
    ∃ a : Fin 3 × Fin 3, b.status a.1 a.2 = Status.BLANK ∧
      (b.setStatus a.1 a.2 Status.ENEMY).hasLine Status.ENEMY ∧
      (∀ c : Fin 3 × Fin 3, rowMajorBefore c a → b.status c.1 c.2 = Status.BLANK →
        ¬ (b.setStatus c.1 c.2 Status.ENEMY).hasLine Status.ENEMY) ∧
      AI_minimax.think b = Run.ok (true, b.setStatus a.1 a.2 Status.ENEMY) ∧
      (b.setStatus a.1 a.2 Status.ENEMY).calc_result = WINNER.ENEMY := by
  obtain ⟨r, c, hrc, hline⟩ := h
  obtain ⟨a, ha, hwin, hfirst, hthink⟩ := AI_minimax.think_first_win b (r, c) hrc
    ((Board.enemy_move_wins_iff b r c hn).2 hline)
  refine ⟨a, ha, (Board.enemy_move_wins_iff b a.1 a.2 hn).1 hwin, ?_, hthink, hwin⟩
  intro c1 hbefore hc1 hl
  exact hfirst c1 hbefore hc1 ((Board.enemy_move_wins_iff b c1.1 c1.2 hn).2 hl)

/-- C17 on a board where the top row can be completed. -/
theorem AI_minimax.think_takes_win_witness :
    winnableBoard.calc_result = WINNER.NOT_FINISHED ∧
    (∃ r c : Fin 3, winnableBoard.status r c = Status.BLANK ∧
      (winnableBoard.setStatus r c Status.ENEMY).hasLine Status.ENEMY) ∧
    ∃ a : Fin 3 × Fin 3, winnableBoard.status a.1 a.2 = Status.BLANK ∧
      (winnableBoard.setStatus a.1 a.2 Status.ENEMY).hasLine Status.ENEMY ∧
      (∀ c : Fin 3 × Fin 3, rowMajorBefore c a → winnableBoard.status c.1 c.2 = Status.BLANK →
        ¬ (winnableBoard.setStatus c.1 c.2 Status.ENEMY).hasLine Status.ENEMY) ∧
      AI_minimax.think winnableBoard =
        Run.ok (true, winnableBoard.setStatus a.1 a.2 Status.ENEMY) ∧
      (winnableBoard.setStatus a.1 a.2 Status.ENEMY).calc_result = WINNER.ENEMY :=
  ⟨by decide, ⟨0, 2, by decide, by decide⟩,
    AI_minimax.think_takes_win winnableBoard (by decide) ⟨0, 2, by decide, by decide⟩⟩

/-! ## The search over snapshots does not depend on its fuel -/

theorem gameValueF_enemy (n : Nat) (t : Bool) (b : Board) (h : b.calc_result = WINNER.ENEMY) :
    gameValueF (n + 1) t b = 1 := by
  rw [gameValueF, h]

theorem gameValueF_player (n : Nat) (t : Bool) (b : Board) (h : b.calc_result = WINNER.PLAYER) :
    gameValueF (n + 1) t b = -1 := by
  rw [gameValueF, h]

theorem gameValueF_draw (n : Nat) (t : Bool) (b : Board) (h : b.calc_result = WINNER.DRAW) :
    gameValueF (n + 1) t b = 0 := by
  rw [gameValueF, h]

theorem gameValueF_second (n : Nat) (b : Board) (h : b.calc_result = WINNER.NOT_FINISHED) :
    gameValueF (n + 1) true b =
      cells.foldl (fun best c =>
        if b.status c.1 c.2 = Status.BLANK then
          max best (gameValueF n false (b.setStatus c.1 c.2 Status.ENEMY))
        else best) (-1) := by
  rw [gameValueF, h]
  rfl

theorem gameValueF_first (n : Nat) (b : Board) (h : b.calc_result = WINNER.NOT_FINISHED) :
    gameValueF (n + 1) false b =
      cells.foldl (fun best c =>
        if b.status c.1 c.2 = Status.BLANK then
          min best (gameValueF n true (b.setStatus c.1 c.2 Status.PLAYER))
        else best) 1 := by
  rw [gameValueF, h]
  rfl

/-- The value is at least `1` exactly when Second can force a win, and at least `0`
exactly when Second can avoid defeat. -/
theorem gameValueF_secures (thr : Int) (h0 : 0 ≤ thr) (h1 : thr ≤ 1) (n : Nat) (t : Bool)
    (b : Board) (hn : b.blanks < n) :
    thr ≤ gameValueF n t b ↔
      Secures (fun w => w = WINNER.ENEMY ∨ (w = WINNER.DRAW ∧ thr ≤ 0)) t b := by
  induction n generalizing t b with
  | zero => omega
  | succ n ih =>
    have hchild : ∀ (s : Status), s ≠ Status.BLANK → ∀ c : Fin 3 × Fin 3,
        b.status c.1 c.2 = Status.BLANK → ∀ t1 : Bool,
        (thr ≤ gameValueF n t1 (b.setStatus c.1 c.2 s) ↔
          Secures (fun w => w = WINNER.ENEMY ∨ (w = WINNER.DRAW ∧ thr ≤ 0)) t1
            (b.setStatus c.1 c.2 s)) := by
      intro s hs c hc t1
      have := Board.blanks_setStatus b c.1 c.2 s hc hs
      exact ih _ _ (by omega)
    cases hres : b.calc_result with
    | ENEMY =>
      rw [gameValueF_enemy n t b hres, Secures.over_iff _ _ _ (by simp [hres]), hres]
      simp only [true_or, iff_true]
      omega
    | PLAYER =>
      rw [gameValueF_player n t b hres, Secures.over_iff _ _ _ (by simp [hres]), hres]
      simp only [false_and, or_self, iff_false, not_le, reduceCtorEq]
      omega
    | DRAW =>
      rw [gameValueF_draw n t b hres, Secures.over_iff _ _ _ (by simp [hres]), hres]
      simp
    | NOT_FINISHED =>
      cases t with
      | true =>
        rw [gameValueF_second n b hres, Secures.second_iff _ b hres,
          le_foldl_max (fun c : Fin 3 × Fin 3 => b.status c.1 c.2 = Status.BLANK)]
        constructor
        · rintro (h | ⟨c, _, hc, hle⟩)
          · omega
          · exact ⟨c, hc, (hchild Status.ENEMY (by decide) c hc false).1 hle⟩
        · rintro ⟨c, hc, hs⟩
          exact Or.inr ⟨c, mem_cells _, hc, (hchild Status.ENEMY (by decide) c hc false).2 hs⟩
      | false =>
        rw [gameValueF_first n b hres, Secures.first_iff _ b hres,
          le_foldl_min (fun c : Fin 3 × Fin 3 => b.status c.1 c.2 = Status.BLANK)]
        constructor
        · rintro ⟨_, hall⟩ c hc
          exact (hchild Status.PLAYER (by decide) c hc true).1 (hall c (mem_cells _) hc)
        · intro hall
          exact ⟨by omega, fun c _ hc =>
            (hchild Status.PLAYER (by decide) c hc true).2 (hall c hc)⟩

theorem forcedWin_iff_value (t : Bool) (b : Board) : ForcedWin t b ↔ 1 ≤ gameValue t b := by
  have hb := Board.blanks_le b
  unfold gameValue ForcedWin
  rw [gameValueF_secures 1 (by omega) (by omega) searchFuel t b
    (by unfold searchFuel BOARD_SIZE; omega)]
  constructor
  · exact Secures.mono _ _ (fun w hw => Or.inl hw) _ _
  · exact Secures.mono _ _ (fun w hw => by
      rcases hw with hw | ⟨_, hw⟩
      · exact hw
      · omega) _ _

theorem holds_iff_value (t : Bool) (b : Board) : Holds t b ↔ 0 ≤ gameValue t b := by
  have hb := Board.blanks_le b
  unfold gameValue Holds
  rw [gameValueF_secures 0 (by omega) (by omega) searchFuel t b
    (by unfold searchFuel BOARD_SIZE; omega)]
  constructor
  · exact Secures.mono _ _ (fun w hw => by
      rcases hw with hw | hw
      · exact Or.inl hw
      · exact Or.inr ⟨hw, le_refl _⟩) _ _
  · exact Secures.mono _ _ (fun w hw => by
      rcases hw with hw | ⟨hw, _⟩
      · exact Or.inl hw
      · exact Or.inr hw) _ _

/-- From a position of value `0`, optimal play of the human against `think` ends in
a draw. -/
theorem optimalPlayDraws_of_value (k : Nat) (t : Bool) (b : Board) (hk : b.blanks ≤ k)
    (hh : Holds t b) (hnw : ¬ ForcedWin t b) : OptimalPlayDraws t b := by
  induction k generalizing t b with
  | zero =>
    cases hres : b.calc_result with
    | DRAW => exact OptimalPlayDraws.drawn t b hres
    | ENEMY => exact absurd (@Secures.over (fun w => w = WINNER.ENEMY) t b (by simp [hres]) hres) hnw
    | PLAYER =>
      rcases Secures.result _ _ _ hh with h | h | h <;> rw [hres] at h <;> simp at h
    | NOT_FINISHED =>
      exfalso
      obtain ⟨r, c, hrc⟩ := (AI_minimax.isMovesLeft_iff b).1 (Board.not_finished_movesLeft b hres)
      have := Board.blanks_setStatus b r c Status.ENEMY hrc (by decide)
      omega
  | succ k ih =>
    cases hres : b.calc_result with
    | DRAW => exact OptimalPlayDraws.drawn t b hres
    | ENEMY => exact absurd (@Secures.over (fun w => w = WINNER.ENEMY) t b (by simp [hres]) hres) hnw
    | PLAYER =>
      rcases Secures.result _ _ _ hh with h | h | h <;> rw [hres] at h <;> simp at h
    | NOT_FINISHED =>
      cases t with
      | false =>
        apply OptimalPlayDraws.human b hres
        intro x y b1 hput hopt
        obtain ⟨r, c, _, _, hrc, rfl⟩ := Board.put_true b b1 x y hput
        have hb1 := Board.blanks_setStatus b r c Status.PLAYER hrc (by decide)
        apply ih _ _ (by omega)
        · exact (Secures.first_iff _ b hres).1 hh (r, c) hrc
        · intro hw1
          apply hnw
          apply (Secures.first_iff _ b hres).2
          intro c2 hc2
          have hput2 := Board.put_blank b c2.1 c2.2 hc2
          have hle := hopt _ _ _ hput2
          show ForcedWin true _
          rw [forcedWin_iff_value] at hw1 ⊢
          omega
      | true =>
        obtain ⟨a, ha, hthink, hkeep⟩ := AI_minimax.think_keeps_hold b hres hh
        have hb1 := Board.blanks_setStatus b a.1 a.2 Status.ENEMY ha (by decide)
        apply OptimalPlayDraws.computer b _ hres hthink
        apply ih _ _ (by omega) hkeep
        intro hw1
        exact hnw (Secures.second b a.1 a.2 hres ha hw1)

/-- Second cannot force a win from the empty board. -/
theorem not_forcedWin_empty : ¬ ForcedWin false Board.empty := by
  rw [forcedWin_iff_securesB, Bool.not_eq_true]
  decide!

/-! ## Blocking an immediate threat -/

/-- A complete line of `s` survives on any board that agrees with the given one
except on a cell that does not hold `s`. -/
theorem Board.hasLine_transfer (b b1 : Board) (z : Fin 3 × Fin 3) (s : Status)
    (hagree : ∀ x : Fin 3 × Fin 3, x ≠ z → b.status x.1 x.2 = b1.status x.1 x.2)
    (hz : b1.status z.1 z.2 ≠ s) (hl : b1.hasLine s) : b.hasLine s := by
  obtain ⟨l, hmem, hall⟩ := hl
  refine ⟨l, hmem, fun x hx => ?_⟩
  have hxs := hall x hx
  have hne : x ≠ z := by
    intro h
    rw [h] at hxs
    exact hz hxs
  rw [hagree x hne, hxs]

/-- With First to move in a position that First has not won, the score at depth `d`
is at least `-9 + d`: First needs one more move to win. -/
theorem scoreF_first_lower (n : Nat) (b : Board) (d : Int) (hd : 0 ≤ d)
    (hdb : d + (b.blanks : Int) ≤ 9) (hn : b.blanks < n)
    (hp : b.calc_result ≠ WINNER.PLAYER) : -10 + d + 1 ≤ scoreF n b d false := by
  cases n with
  | zero => omega
  | succ n =>
    have hnat : (0 : Int) ≤ (b.blanks : Int) := Int.ofNat_nonneg _
    cases hres : b.calc_result with
    | ENEMY => rw [scoreF_enemy n b d false hres]; omega
    | PLAYER => exact absurd hres hp
    | DRAW => rw [scoreF_draw n b d false hres]; omega
    | NOT_FINISHED =>
      rw [scoreF_min n b d hres,
        le_foldl_min (fun c : Fin 3 × Fin 3 => b.status c.1 c.2 = Status.BLANK)]
      refine ⟨by omega, fun c _ hc => ?_⟩
      have := Board.blanks_setStatus b c.1 c.2 Status.PLAYER hc (by decide)
      have := (scoreF_depth_bounds n (b.setStatus c.1 c.2 Status.PLAYER) (d + 1) true
        (by omega) (by omega) (by omega)).1
      omega

/-- With Second to move in a position that First has not won, the score at depth
`d` is at least `-8 + d`: First needs two more moves to win. -/
theorem scoreF_second_lower (n : Nat) (b : Board) (d : Int) (hd : 0 ≤ d)
    (hdb : d + (b.blanks : Int) ≤ 8) (hn : b.blanks < n)
    (hp : b.calc_result ≠ WINNER.PLAYER) : -10 + d + 2 ≤ scoreF n b d true := by
  cases n with
  | zero => omega
  | succ n =>
    have hnat : (0 : Int) ≤ (b.blanks : Int) := Int.ofNat_nonneg _
    cases hres : b.calc_result with
    | ENEMY => rw [scoreF_enemy n b d true hres]; omega
    | PLAYER => exact absurd hres hp
    | DRAW => rw [scoreF_draw n b d true hres]; omega
    | NOT_FINISHED =>
      obtain ⟨r, c, hrc⟩ := (AI_minimax.isMovesLeft_iff b).1 (Board.not_finished_movesLeft b hres)
      rw [scoreF_max n b d hres,
        le_foldl_max (fun c : Fin 3 × Fin 3 => b.status c.1 c.2 = Status.BLANK)]
      have hb1 := Board.blanks_setStatus b r c Status.ENEMY hrc (by decide)
      have := scoreF_first_lower n (b.setStatus r c Status.ENEMY) (d + 1) (by omega) (by omega)
        (by omega) (Board.calc_result_enemy_move b r c hres)
      refine Or.inr ⟨(r, c), mem_cells _, hrc, ?_⟩
      show -10 + d + 2 ≤ scoreF n (b.setStatus r c Status.ENEMY) (d + 1) false
      omega

/-- The position after a move of Second that neither wins nor fills the board is
unfinished. -/
theorem Board.enemy_move_not_finished (b : Board) (a z : Fin 3 × Fin 3)
    (hn : b.calc_result = WINNER.NOT_FINISHED)
    (hno : ¬ (b.setStatus a.1 a.2 Status.ENEMY).hasLine Status.ENEMY)
    (hz : b.status z.1 z.2 = Status.BLANK) (hza : z ≠ a) :
    (b.setStatus a.1 a.2 Status.ENEMY).calc_result = WINNER.NOT_FINISHED := by
  cases hres : (b.setStatus a.1 a.2 Status.ENEMY).calc_result with
  | NOT_FINISHED => rfl
  | ENEMY => exact absurd (Board.calc_result_enemy _ hres) hno
  | PLAYER => exact absurd hres (Board.calc_result_enemy_move b a.1 a.2 hn)
  | DRAW =>
    exfalso
    have hm := Board.draw_no_movesLeft _ hres
    have : AI_minimax.isMovesLeft (b.setStatus a.1 a.2 Status.ENEMY) = true := by
      rw [AI_minimax.isMovesLeft_iff]
      refine ⟨z.1, z.2, ?_⟩
      have hne : ¬ (z.1 = a.1 ∧ z.2 = a.2) := fun h => hza (Prod.ext h.1 h.2)
      rw [Board.status_setStatus, if_neg hne, hz]
    rw [this] at hm
    simp at hm

/-- When First threatens to complete a line on `c` and Second moves elsewhere
without winning, the move scores `-9`. -/
theorem trialScore_unblocked (b : Board) (c a : Fin 3 × Fin 3)
    (hn : b.calc_result = WINNER.NOT_FINISHED)
    (hc : b.status c.1 c.2 = Status.BLANK)
    (hP : (b.setStatus c.1 c.2 Status.PLAYER).hasLine Status.PLAYER)
    (ha : b.status a.1 a.2 = Status.BLANK) (hac : a ≠ c)
    (hno : ¬ (b.setStatus a.1 a.2 Status.ENEMY).hasLine Status.ENEMY) :
    trialScore b a = -9 := by
  have hb := Board.blanks_le b
  have hb1 := Board.blanks_setStatus b a.1 a.2 Status.ENEMY ha (by decide)
  have hn1 := Board.enemy_move_not_finished b a c hn hno hc (fun h => hac h.symm)
  have hfuel : searchFuel = 9 + 1 := rfl
  have hca : ¬ (c.1 = a.1 ∧ c.2 = a.2) := fun h => hac (Prod.ext h.1 h.2).symm
  have hc1 : (b.setStatus a.1 a.2 Status.ENEMY).status c.1 c.2 = Status.BLANK := by
    rw [Board.status_setStatus, if_neg hca, hc]
  have hlow := scoreF_first_lower searchFuel (b.setStatus a.1 a.2 Status.ENEMY) 0
    (by omega) (by omega) (by rw [hfuel]; omega) (by rw [hn1]; decide)
  have hwin : ((b.setStatus a.1 a.2 Status.ENEMY).setStatus c.1 c.2 Status.PLAYER).calc_result
      = WINNER.PLAYER := by
    rw [Board.player_move_wins_iff _ _ _ hn1]
    apply Board.hasLine_transfer _ (b.setStatus c.1 c.2 Status.PLAYER) a Status.PLAYER _ _ hP
    · intro x hx
      have hxa : ¬ (x.1 = a.1 ∧ x.2 = a.2) := fun h => hx (Prod.ext h.1 h.2)
      simp only [Board.status_setStatus, if_neg hxa]
    · have hac1 : ¬ (a.1 = c.1 ∧ a.2 = c.2) := fun h => hac (Prod.ext h.1 h.2)
      rw [Board.status_setStatus, if_neg hac1, ha]
      decide
  unfold trialScore
  rw [hfuel] at hlow ⊢
  have hup : ¬ (-8 ≤ scoreF (9 + 1) (b.setStatus a.1 a.2 Status.ENEMY) 0 false) := by
    rw [scoreF_min 9 _ 0 hn1, le_foldl_min (fun x : Fin 3 × Fin 3 =>
      (b.setStatus a.1 a.2 Status.ENEMY).status x.1 x.2 = Status.BLANK)]
    rintro ⟨_, hall⟩
    have := hall c (mem_cells _) hc1
    rw [show (9 : Nat) = 8 + 1 from rfl, scoreF_player 8 _ (0 + 1) true hwin] at this
    omega
  omega

/-- When the only immediate threat of First is on `c`, blocking on `c` scores at
least `-7`. -/
theorem trialScore_block (b : Board) (c : Fin 3 × Fin 3)
    (hn : b.calc_result = WINNER.NOT_FINISHED)
    (hc : b.status c.1 c.2 = Status.BLANK)
    (hno : ¬ (b.setStatus c.1 c.2 Status.ENEMY).hasLine Status.ENEMY)
    (huniq : ∀ r1 c1 : Fin 3, b.status r1 c1 = Status.BLANK →
      (b.setStatus r1 c1 Status.PLAYER).hasLine Status.PLAYER → (r1, c1) = c) :
    -7 ≤ trialScore b c := by
  have hb := Board.blanks_le b
  have hb1 := Board.blanks_setStatus b c.1 c.2 Status.ENEMY hc (by decide)
  have hfuel : searchFuel = 9 + 1 := rfl
  unfold trialScore
  rw [hfuel]
  cases hres : (b.setStatus c.1 c.2 Status.ENEMY).calc_result with
  | ENEMY => exact absurd (Board.calc_result_enemy _ hres) hno
  | PLAYER => exact absurd hres (Board.calc_result_enemy_move b c.1 c.2 hn)
  | DRAW => rw [scoreF_draw 9 _ 0 false hres]; omega
  | NOT_FINISHED =>
    rw [scoreF_min 9 _ 0 hres, le_foldl_min (fun x : Fin 3 × Fin 3 =>
      (b.setStatus c.1 c.2 Status.ENEMY).status x.1 x.2 = Status.BLANK)]
    refine ⟨by omega, fun x _ hx => ?_⟩
    have hxc : ¬ (x.1 = c.1 ∧ x.2 = c.2) := by
      intro h
      rw [Board.status_setStatus, if_pos h] at hx
      simp at hx
    have hxb : b.status x.1 x.2 = Status.BLANK := by
      rw [Board.status_setStatus, if_neg hxc] at hx
      exact hx
    have hb2 := Board.blanks_setStatus _ x.1 x.2 Status.PLAYER hx (by decide)
    have hnp : ((b.setStatus c.1 c.2 Status.ENEMY).setStatus x.1 x.2 Status.PLAYER).calc_result
        ≠ WINNER.PLAYER := by
      intro hwin
      have hl := Board.calc_result_player _ hwin
      have hl1 : (b.setStatus x.1 x.2 Status.PLAYER).hasLine Status.PLAYER := by
        apply Board.hasLine_transfer _ _ c Status.PLAYER _ _ hl
        · intro y hy
          have hyc : ¬ (y.1 = c.1 ∧ y.2 = c.2) := fun h => hy (Prod.ext h.1 h.2)
          simp only [Board.status_setStatus, if_neg hyc]
        · have hcx : ¬ (c.1 = x.1 ∧ c.2 = x.2) := fun h => hxc ⟨h.1.symm, h.2.symm⟩
          simp [Board.status_setStatus, hcx]
      have := huniq x.1 x.2 hxb hl1
      exact hxc ⟨congrArg Prod.fst this, congrArg Prod.snd this⟩
    have := scoreF_second_lower 9 _ (0 + 1) (by omega) (by omega) (by omega) hnp
    omega

/-- When no move wins at once and First has exactly one immediate threat, `think`
blocks it. -/
theorem AI_minimax.think_block (b : Board) (c : Fin 3 × Fin 3)
    (hn : b.calc_result = WINNER.NOT_FINISHED)
    (hE : ∀ r1 c1 : Fin 3, b.status r1 c1 = Status.BLANK →
      ¬ (b.setStatus r1 c1 Status.ENEMY).hasLine Status.ENEMY)
    (hc : b.status c.1 c.2 = Status.BLANK)
    (hP : (b.setStatus c.1 c.2 Status.PLAYER).hasLine Status.PLAYER)
    (huniq : ∀ r1 c1 : Fin 3, b.status r1 c1 = Status.BLANK →
      (b.setStatus r1 c1 Status.PLAYER).hasLine Status.PLAYER → (r1, c1) = c) :
    AI_minimax.think b = Run.ok (true, b.setStatus c.1 c.2 Status.ENEMY) := by
  obtain ⟨a, ha, _, hmax, hthink⟩ := AI_minimax.think_blank b ⟨c.1, c.2, hc⟩
  have hblock := trialScore_block b c hn hc (hE c.1 c.2 hc) huniq
  by_cases hac : a = c
  · rw [← hac]
    exact hthink
  · have h9 := trialScore_unblocked b c a hn hc hP ha hac (hE a.1 a.2 ha)
    have := hmax c hc
    omega

/-! ## Optimal moves exist; calls of `Game::put` and `Game::think` -/

/-- In an unfinished position the human has an accepted `put` that minimises the
value of the resulting position. -/
theorem exists_optimal_put (b : Board) (hn : b.calc_result = WINNER.NOT_FINISHED) :
    ∃ (x y : Int) (b1 : Board), b.put x y = (true, b1) ∧
      ∀ (x1 y1 : Int) (b2 : Board), b.put x1 y1 = (true, b2) →
        gameValue true b1 ≤ gameValue true b2 := by
  obtain ⟨r, c, hrc⟩ := (AI_minimax.isMovesLeft_iff b).1 (Board.not_finished_movesLeft b hn)
  have hne : ((Finset.univ : Finset (Fin 3 × Fin 3)).filter
      (fun a => b.status a.1 a.2 = Status.BLANK)).Nonempty :=
    ⟨(r, c), by simp [hrc]⟩
  obtain ⟨a, ha, hmin⟩ := Finset.exists_min_image _
    (fun a : Fin 3 × Fin 3 => gameValue true (b.setStatus a.1 a.2 Status.PLAYER)) hne
  have hab : b.status a.1 a.2 = Status.BLANK := by simpa using ha
  refine ⟨(a.2.val : Int), (a.1.val : Int), _, Board.put_blank b a.1 a.2 hab, ?_⟩
  intro x1 y1 b2 hput
  obtain ⟨r1, c1, _, _, hb1, rfl⟩ := Board.put_true b b2 x1 y1 hput
  exact hmin (r1, c1) (by simp [hb1])

/-- After any sequence of calls the cached winner is the outcome of the board. -/
theorem afterCalls_winner (g : Game) (h : AfterCalls g) :
    g.winner_ = g.board_.calc_result := by
  induction h with
  | fresh => decide
  | put g g1 x y ret _ hput ih =>
    cases ret with
    | true => exact (Game.put_accepted g g1 x y hput).2
    | false =>
      rw [Game.put_rejected g g1 x y hput]
      exact ih
  | think g g1 ret _ hblank hthink _ =>
    obtain ⟨a, _, _, _, hth⟩ := AI_minimax.think_blank g.board_ hblank
    rw [Game.think_of_board g a hth] at hthink
    have := Run.ok_inj _ _ hthink
    simp only [Prod.mk.injEq] at this
    rw [← this.2]

/-- What `mass_[r][c].setStatus(s)` does to the board: the cell holds `s` and every
other cell is as before. -/
theorem Board.setStatus_frame (b : Board) (r c : Fin 3) (s : Status) :
    (b.setStatus r c s).status r c = s ∧
    ∀ r1 c1 : Fin 3, (r1, c1) ≠ (r, c) → (b.setStatus r c s).status r1 c1 = b.status r1 c1 := by
  constructor
  · simp [Board.status_setStatus]
  · intro r1 c1 hne
    have : ¬ (r1 = r ∧ c1 = c) := fun h => hne (by rw [h.1, h.2])
    simp only [Board.status_setStatus, if_neg this]

/-! ## Claims about terminal positions, optimal play, blocking and `Game` -/

/-- C11, refuted as stated: the board with rows `E E E`, `P P _`, `_ _ _` is in a
terminal position (`calc_result()` is `ENEMY`), yet `AI_ordered::think`,
`AI_minimax::think` and `Game::think` all return `true` on it. -/
theorem selector_on_terminal_counterexample :
    wonBoard.calc_result = WINNER.ENEMY ∧
    (AI_ordered.think wonBoard).1 = true ∧
    (∃ b1, AI_minimax.think wonBoard = Run.ok (true, b1)) ∧
    ∃ g1, Game.think ⟨wonBoard, WINNER.ENEMY⟩ = Run.ok (true, g1) := by
  obtain ⟨a, _, _, _, hth⟩ := AI_minimax.think_blank wonBoard ⟨1, 2, by decide⟩
  exact ⟨by decide, by decide, ⟨_, hth⟩, ⟨_, Game.think_of_board ⟨wonBoard, WINNER.ENEMY⟩ a hth⟩⟩

/-- C11, amended: on a board in a terminal position `AI_ordered::think` returns
`false`, leaving the board unchanged, when no cell is `BLANK`, which is so for every
`DRAW` board and for every won board that is full; on a won board with a `BLANK`
cell, `AI_ordered::think`, `AI_minimax::think` and hence `Game::think` return `true`
after marking a `BLANK` cell `ENEMY` and changing no other cell (for
`AI_ordered::think` the first `BLANK` cell in row-major order). -/
theorem selector_on_terminal (b : Board) :
    (b.calc_result = WINNER.DRAW → AI_ordered.think b = (false, b)) ∧
    (b.calc_result = WINNER.PLAYER ∨ b.calc_result = WINNER.ENEMY →
      (∀ r c : Fin 3, b.status r c ≠ Status.BLANK) → AI_ordered.think b = (false, b)) ∧
    (b.calc_result = WINNER.PLAYER ∨ b.calc_result = WINNER.ENEMY →
      (∃ r c : Fin 3, b.status r c = Status.BLANK) →
      (∃ r c : Fin 3, b.status r c = Status.BLANK ∧
        (∀ r1 c1 : Fin 3, (r1 < r ∨ (r1 = r ∧ c1 < c)) → b.status r1 c1 ≠ Status.BLANK) ∧
        (AI_ordered.think b).1 = true ∧
        (AI_ordered.think b).2.status r c = Status.ENEMY ∧
        ∀ r1 c1 : Fin 3, (r1, c1) ≠ (r, c) →
          (AI_ordered.think b).2.status r1 c1 = b.status r1 c1) ∧
      (∃ (b1 : Board) (r c : Fin 3), b.status r c = Status.BLANK ∧
        AI_minimax.think b = Run.ok (true, b1) ∧
        Game.think ⟨b, b.calc_result⟩ = Run.ok (true, ⟨b1, b1.calc_result⟩) ∧
        b1.status r c = Status.ENEMY ∧
        ∀ r1 c1 : Fin 3, (r1, c1) ≠ (r, c) → b1.status r1 c1 = b.status r1 c1)) := by
  have hfull : (∀ r c : Fin 3, b.status r c ≠ Status.BLANK) → AI_ordered.think b = (false, b) :=
    fun h => AI_ordered.thinkLoop_full b cells (fun c _ => h c.1 c.2)
  refine ⟨?_, fun _ h => hfull h, ?_⟩
  · intro hd
    apply hfull
    intro r c hrc
    have h1 := Board.draw_no_movesLeft b hd
    have h2 := (AI_minimax.isMovesLeft_iff b).2 ⟨r, c, hrc⟩
    rw [h1] at h2
    simp at h2
  · intro _ hblank
    constructor
    · obtain ⟨r, c, hrc⟩ := hblank
      obtain ⟨l1, c0, l2, hsplit, hl1, hc0⟩ :=
        first_blank_split b cells ⟨(r, c), mem_cells _, hrc⟩
      have hth : AI_ordered.think b = (true, b.setStatus c0.1 c0.2 Status.ENEMY) := by
        unfold AI_ordered.think
        rw [hsplit, AI_ordered.thinkLoop_first b l1 l2 c0 hl1 hc0]
      refine ⟨c0.1, c0.2, hc0, ?_, ?_⟩
      · intro r1 c1 hlt
        exact hl1 (r1, c1) ((cells_split_before l1 l2 c0 hsplit (r1, c1)).2 hlt)
      · rw [hth]
        exact ⟨rfl, Board.setStatus_frame b c0.1 c0.2 Status.ENEMY⟩
    · obtain ⟨a, ha, _, _, hth⟩ := AI_minimax.think_blank b hblank
      exact ⟨_, a.1, a.2, ha, hth, Game.think_of_board ⟨b, b.calc_result⟩ a hth,
        Board.setStatus_frame b a.1 a.2 Status.ENEMY⟩

/-- C12: if First also plays optimally, the result is a draw: every play from the
empty board in which First moves first, each First move minimises the
game-theoretic value of the resulting position, and each Second move is chosen by
`AI_minimax::think`, ends with `calc_result() == DRAW`.  The value of the empty
board is `0`, and in every unfinished position First has such a minimising move. -/
theorem optimal_play_is_draw :
    OptimalPlayDraws false Board.empty ∧
    gameValue false Board.empty = 0 ∧
    ∀ b : Board, b.calc_result = WINNER.NOT_FINISHED →
      ∃ (x y : Int) (b1 : Board), b.put x y = (true, b1) ∧
        ∀ (x1 y1 : Int) (b2 : Board), b.put x1 y1 = (true, b2) →
          gameValue true b1 ≤ gameValue true b2 := by
  refine ⟨optimalPlayDraws_of_value _ false Board.empty (le_refl _) holds_empty
    not_forcedWin_empty, ?_, exists_optimal_put⟩
  have h1 := (holds_iff_value false Board.empty).1 holds_empty
  have h2 : ¬ 1 ≤ gameValue false Board.empty :=
    fun h => not_forcedWin_empty ((forcedWin_iff_value false Board.empty).2 h)
  omega

/-- C18: for every board with `calc_result() == NOT_FINISHED` on which no `BLANK`
cell would complete an `ENEMY` line and exactly one `BLANK` cell `c` would complete a
`PLAYER` line, `think` marks `c` with `ENEMY`: every other move scores `-9`, the block
scores at least `-7`. -/
theorem AI_minimax.think_blocks_threat (b : Board) (c : Fin 3 × Fin 3)
    (hn : b.calc_result = WINNER.NOT_FINISHED)
    (hE : ∀ r1 c1 : Fin 3, b.status r1 c1 = Status.BLANK →
      ¬ (b.setStatus r1 c1 Status.ENEMY).hasLine Status.ENEMY)
    (hc : b.status c.1 c.2 = Status.BLANK)
    (hP : (b.setStatus c.1 c.2 Status.PLAYER).hasLine Status.PLAYER)
    (huniq : ∀ r1 c1 : Fin 3, b.status r1 c1 = Status.BLANK →
      (b.setStatus r1 c1 Status.PLAYER).hasLine Status.PLAYER → (r1, c1) = c) :
    AI_minimax.think b = Run.ok (true, b.setStatus c.1 c.2 Status.ENEMY) ∧
    (∀ a : Fin 3 × Fin 3, b.status a.1 a.2 = Status.BLANK → a ≠ c →
      AI_minimax.minimax (b.setStatus a.1 a.2 Status.ENEMY) 0 false =
        some (-9, b.setStatus a.1 a.2 Status.ENEMY)) ∧
    ∃ v : Int, AI_minimax.minimax (b.setStatus c.1 c.2 Status.ENEMY) 0 false =
      some (v, b.setStatus c.1 c.2 Status.ENEMY) ∧ -7 ≤ v := by
  refine ⟨AI_minimax.think_block b c hn hE hc hP huniq, ?_, ?_⟩
  · intro a ha hac
    rw [AI_minimax.minimax_trial, trialScore_unblocked b c a hn hc hP ha hac (hE a.1 a.2 ha)]
  · exact ⟨_, AI_minimax.minimax_trial b c,
      trialScore_block b c hn hc (hE c.1 c.2 hc) huniq⟩

/-- C18 on the board with rows `P P _`, `_ E _`, `_ _ _`, where only `(0,2)`
completes a line. -/
theorem AI_minimax.think_blocks_threat_witness :
    blockBoard.calc_result = WINNER.NOT_FINISHED ∧
    (∀ r1 c1 : Fin 3, blockBoard.status r1 c1 = Status.BLANK →
      ¬ (blockBoard.setStatus r1 c1 Status.ENEMY).hasLine Status.ENEMY) ∧
    blockBoard.status 0 2 = Status.BLANK ∧
    (blockBoard.setStatus 0 2 Status.PLAYER).hasLine Status.PLAYER ∧
    (∀ r1 c1 : Fin 3, blockBoard.status r1 c1 = Status.BLANK →
      (blockBoard.setStatus r1 c1 Status.PLAYER).hasLine Status.PLAYER → (r1, c1) = (0, 2)) ∧
    AI_minimax.think blockBoard = Run.ok (true, blockBoard.setStatus 0 2 Status.ENEMY) ∧
    (∀ a : Fin 3 × Fin 3, blockBoard.status a.1 a.2 = Status.BLANK → a ≠ (0, 2) →
      AI_minimax.minimax (blockBoard.setStatus a.1 a.2 Status.ENEMY) 0 false =
        some (-9, blockBoard.setStatus a.1 a.2 Status.ENEMY)) ∧
    ∃ v : Int, AI_minimax.minimax (blockBoard.setStatus 0 2 Status.ENEMY) 0 false =
      some (v, blockBoard.setStatus 0 2 Status.ENEMY) ∧ -7 ≤ v :=
  ⟨by decide, by decide, by decide, by decide, by decide,
    AI_minimax.think_blocks_threat blockBoard (0, 2) (by decide) (by decide) (by decide)
      (by decide) (by decide)⟩

/-- C20: for a freshly constructed `Game` and after every sequence of `Game::put`
and `Game::think` calls (`think` being called only while the board has a `BLANK`
cell), successful or failed, `is_finished()` equals `board_.calc_result()` of the
current board. -/
theorem Game.winner_in_step (g : Game) (h : AfterCalls g) :
    g.is_finished = g.board_.calc_result :=
  afterCalls_winner g h

/-- C20 after a rejected `put(5, 5)`, an accepted `put(0, 0)` and a call of
`think`. -/
theorem Game.winner_in_step_witness :
    AfterCalls ⟨sample2, WINNER.NOT_FINISHED⟩ ∧
    (⟨sample2, WINNER.NOT_FINISHED⟩ : Game).is_finished = sample2.calc_result :=
  have h : AfterCalls ⟨sample2, WINNER.NOT_FINISHED⟩ :=
    AfterCalls.think ⟨sample1, WINNER.NOT_FINISHED⟩ _ true
      (AfterCalls.put Game.new _ 0 0 true
        (AfterCalls.put Game.new Game.new 5 5 false AfterCalls.fresh (by decide))
        (by decide))
      ⟨0, 1, by decide⟩
      (Game.think_onlyHolding ⟨sample1, WINNER.NOT_FINISHED⟩ (1, 1) (by decide!))
  ⟨h, Game.winner_in_step _ h⟩

end TickTackToe
